import Mathlib

/-!
# Bagging ensemble coordinator (`src/bagging.cc`)

A shallow embedding of `fasttext::Bagging`: the set-up of the member loss
layers, the training loss with hash-gated member dropout, the two-phase
k-best fusion used at inference, and the delegation of `save` and `load`.

Conventions of the embedding.

* A value of type `real` (the 32-bit `float`) is modelled by the rational
  number it stands for, and `±2^128` stands for `±∞`.  Every addition and
  division whose result the code stores in a `real` is rounded as IEEE 754
  binary32 does (`fadd`, `fdiv`, `toReal`, built on `roundReal`).  The value
  computed by `hashInput` is an integer below `2^24` divided by `2^24`; that
  quotient and its comparison with the dropout parameter are exact.  NaN is
  not modelled: members are taken to return finite values.
* `int32_t` values are modelled in `Int`, and an addition stored in an
  `int32_t` wraps to the 32-bit two's complement range (`wrapInt32`).  The
  `uint32_t` arithmetic of `hashInput` wraps and is modelled with an explicit
  `% 2^32`.
* A `std::string` is the list of its byte values.
* Undefined behaviour and aborts (a failed `assert`, indexing `baseLayers`
  out of range, `resize` with a negative count) are modelled by `none`.
-/

namespace fasttext

/-- The floating type `real` of the code base (a 32-bit `float`): a value is
the rational number it stands for, `±2^128` standing for `±∞`. -/
abbrev real := ℚ

/-! ## Arithmetic of `real` and of `int32_t` -/

/-- The nearest natural number to a non-negative rational, a tie going to the
even neighbour. -/
def roundHalfEven (s : ℚ) : Nat :=
  let f := (Rat.floor s).toNat
  let r := s - (f : ℚ)
  if r < 1 / 2 then f
  else if 1 / 2 < r then f + 1
  else if f % 2 = 0 then f else f + 1

/-- The number of halvings that take `n` to `0`, counted with at most `fuel`
steps: the bit length of `n` when `fuel` is at least `n`. -/
def bitLengthAux : Nat → Nat → Nat
  | 0, _ => 0
  | fuel + 1, n => if n = 0 then 0 else bitLengthAux fuel (n / 2) + 1

/-- The bit length of a natural number: `0` for `0`, and `k + 1` when
`2^k ≤ n < 2^(k+1)`. -/
def bitLength (n : Nat) : Nat :=
  bitLengthAux n n

/-- The binary exponent of a positive rational `a`: the integer `e` with
`2^e ≤ a < 2^(e+1)`.  It is the difference of the bit lengths of numerator and
denominator, or one less. -/
def floorLog2 (a : ℚ) : Int :=
  let e0 : Int := (bitLength a.num.toNat : Int) - (bitLength a.den : Int)
  if (2 : ℚ) ^ e0 ≤ a then e0 else e0 - 1

/-- Rounding of an exact result to binary32, round to nearest, ties to even:
the magnitude is rounded to a multiple of `2^q`, where `q` is the exponent of
the last of the 24 significand bits and not below `-149` (subnormal range); a
result of magnitude `2^128` or more is `±∞`. -/
def roundReal (x : ℚ) : real :=
  if x = 0 then 0
  else
    let q : Int := max (floorLog2 |x| - 23) (-149)
    let mag : ℚ :=
      min ((roundHalfEven (|x| / (2 : ℚ) ^ q) : ℚ) * (2 : ℚ) ^ q) ((2 : ℚ) ^ (128 : Nat))
    if x < 0 then -mag else mag

/-- The sum `a + b` of two `real` values as the code computes it: an infinite
operand stays, a finite sum is rounded. -/
def fadd (a b : real) : real :=
  if (2 : ℚ) ^ (128 : Nat) ≤ |a| then a
  else if (2 : ℚ) ^ (128 : Nat) ≤ |b| then b
  else roundReal (a + b)

/-- The quotient `a / n` of two `real` values as the code computes it, for a
finite divisor: an infinite dividend stays, a finite quotient is rounded. -/
def fdiv (a n : real) : real :=
  if (2 : ℚ) ^ (128 : Nat) ≤ |a| then a else roundReal (a / n)

/-- The conversion of an `int` to `real`, in `(real)args_->nbase` and in the
division of a `real` by an `int`. -/
def toReal (n : Int) : real :=
  roundReal (n : ℚ)

/-- The value an `int32_t` holds after an addition whose exact result is
`x`: `x` reduced to the range `[-2^31, 2^31)` of 32-bit two's complement. -/
def wrapInt32 (x : Int) : Int :=
  (x + 2147483648) % 4294967296 - 2147483648

/-- Modelled from the spec: the fields of the configuration object `Args`
(declared in `args.h`) that `Bagging` reads or writes: the member count
`nbase`, the dropout parameter `bagging`, the flag `randomTree`, and the tag
`loss` that selects the member algorithm. -/
structure Args where
  nbase : Int
  bagging : real
  randomTree : Bool
  loss : Nat
deriving DecidableEq

/-- Modelled from the spec: the capability interface of a member loss layer
(the class `LossLayer`, declared in `losslayer.h`).  `shift` is the row offset
stored by `setShift`, `size` the value reported by `getSize()`, `multilabel`
the value of `isMultilabel()`.  The three function fields are the virtual
methods `loss`, `findKBest` and `getLabelP`; `Model` stands for everything a
member may read or update during training (the model pointed to by `model_`
together with the member's own internals), `Vec` for the hidden vector.
`findKBest` receives the content of the output container on entry and gives
its content on return. -/
structure LossLayer (Model Vec : Type) where
  shift : Int
  size : Int
  multilabel : Bool
  loss : List Int → real → Model → real × Model
  findKBest : Int → List (real × Int) → Vec → Model → List (real × Int)
  getLabelP : Int → Vec → Model → real

/-- The call `base->setShift(offset)`. -/
def LossLayer.setShift {Model Vec : Type} (base : LossLayer Model Vec) (offset : Int) :
    LossLayer Model Vec :=
  { base with shift := offset }

/-- The call `base->getSize()`. -/
def LossLayer.getSize {Model Vec : Type} (base : LossLayer Model Vec) : Int :=
  base.size

/-- The call `base->isMultilabel()`. -/
def LossLayer.isMultilabel {Model Vec : Type} (base : LossLayer Model Vec) : Bool :=
  base.multilabel

/-- The data members of `Bagging`: the shared configuration `args_`, the
running total `sizeSum`, the flag `multilabel` and the vector `baseLayers`. -/
structure Bagging (Model Vec : Type) where
  args_ : Args
  sizeSum : Int
  multilabel : Bool
  baseLayers : List (LossLayer Model Vec)

/-- The constructor `Bagging::Bagging(args)`: it stores the configuration and
leaves `baseLayers` empty.  It does not initialise `sizeSum`; the value found
there (`sizeSum0`) and the flag inherited from the base class (`multilabel0`)
are arguments of the model. -/
def Bagging.new {Model Vec : Type} (args : Args) (sizeSum0 : Int) (multilabel0 : Bool) :
    Bagging Model Vec :=
  { args_ := args, sizeSum := sizeSum0, multilabel := multilabel0, baseLayers := [] }

/-! ## `std::to_string` and `hashInput` -/

/-- Decimal digits of a natural number as ASCII bytes, most significant first
(`"0"` for zero). -/
def decimal (n : Nat) : List Nat :=
  if n = 0 then [48] else (Nat.digits 10 n).reverse.map (fun d => 48 + d)

/-- `std::to_string(int)`: the decimal digits, preceded by `-` (byte 45) for a
negative value. -/
def to_string (v : Int) : List Nat :=
  if v < 0 then 45 :: decimal v.natAbs else decimal v.toNat

/-- The conversion `uint32_t(str[i])` of one `char`.  With a signed `char` a
byte of value 128 or more is a negative number and converts to
`2^32 - 256 + b`. -/
def charToUint32 (b : Nat) : Nat :=
  if b < 128 then b else (4294967040 + b) % 4294967296

/-- The loop of `hashInput`: for each byte, `h = h ^ uint32_t(str[i])` and then
`h = h * 16777619` in `uint32_t` arithmetic. -/
def hashLoop : List Nat → Nat → Nat
  | [], h => h
  | c :: cs, h => hashLoop cs (((h ^^^ charToUint32 c) * 16777619) % 4294967296)

/-- `Bagging::hashInput`: the fold started at `2166136261`, reduced modulo
`max = 1 << 24` and divided by `max`.  Numerator and divisor are integers of
at most 25 bits and the divisor is a power of two, so the `real` quotient is
the exact one. -/
def hashInput (str : List Nat) : real :=
  ((hashLoop str 2166136261 % 16777216 : Nat) : real) / ((16777216 : Nat) : real)

/-! ## `Bagging::setup` -/

/-- The loop of `Bagging::setup`, with `n` iterations left.  Each iteration
builds a member with the factory, sets it up, assigns it the current `sizeSum`
as its shift, adds its size to `sizeSum` (an `int32_t`), and appends it to
`baseLayers`.
`lossLayerFactory` and `baseSetup` (the member's own `setup`) are defined
outside this file; `Env` is the state they may use and change (for instance
the random generator that shapes each member's tree). -/
def Bagging.setupLoop {Model Vec Dict Env : Type}
    (lossLayerFactory : Args → Nat → Env → LossLayer Model Vec × Env)
    (baseSetup : LossLayer Model Vec → Args → Dict → Env → LossLayer Model Vec × Env)
    (args_ : Args) (dict : Dict) :
    Nat → Int → List (LossLayer Model Vec) → Env → Int × List (LossLayer Model Vec) × Env
  | 0, sizeSum, baseLayers, env => (sizeSum, baseLayers, env)
  | n + 1, sizeSum, baseLayers, env =>
    let made := lossLayerFactory args_ args_.loss env
    let ready := baseSetup made.1 args_ dict made.2
    let base := ready.1.setShift sizeSum
    Bagging.setupLoop lossLayerFactory baseSetup args_ dict n
      (wrapInt32 (sizeSum + base.getSize)) (baseLayers ++ [base]) ready.2

/-- `Bagging::setup`.  It stores the configuration, resets `sizeSum`, forces
`randomTree`, asserts `nbase > 0` (`none` when the assertion fails), runs the
loop `nbase` times and reads `multilabel` from `baseLayers[0]`. -/
def Bagging.setup {Model Vec Dict Env : Type} (self : Bagging Model Vec)
    (lossLayerFactory : Args → Nat → Env → LossLayer Model Vec × Env)
    (baseSetup : LossLayer Model Vec → Args → Dict → Env → LossLayer Model Vec × Env)
    (args : Args) (dict : Dict) (env : Env) : Option (Bagging Model Vec × Env) :=
  let args_ : Args := { args with randomTree := true }
  if args_.nbase > 0 then
    let done := Bagging.setupLoop lossLayerFactory baseSetup args_ dict
      args_.nbase.toNat 0 self.baseLayers env
    match done.2.1[0]? with
    | none => none
    | some first =>
      some ({ args_ := args_, sizeSum := done.1, multilabel := first.isMultilabel,
              baseLayers := done.2.1 }, done.2.2)
  else none

/-- `Bagging::getSize`. -/
def Bagging.getSize {Model Vec : Type} (self : Bagging Model Vec) : Int :=
  self.sizeSum

/-! ## `Bagging::loss` -/

/-- The first loop of `Bagging::loss`: `catInput` starts as `"&"` and, when
`bagging < 1.0`, receives `"_" + std::to_string(i)` for every input feature. -/
def catInput (bagging : real) (input : List Int) : List Nat :=
  if bagging < 1 then input.foldl (fun cat i => cat ++ (95 :: to_string i)) [38] else [38]

/-- The local state of `Bagging::loss`: the accumulator `lossSum`, the counter
`numOfUpdates`, the state behind `model_`, and a log (not present in the code)
of the member calls made so far: member index, labels and learning rate. -/
structure LossRun (Model : Type) where
  lossSum : real
  numOfUpdates : real
  model : Model
  calls : List (Nat × List Int × real)

/-- The second loop of `Bagging::loss` over the members from index `i` on: a
member is skipped when `bagging < 1.0` and the hash of
`std::to_string(i) + catInput` is below `bagging`; otherwise its loss is
invoked and added to `lossSum`, and `1.0` is added to `numOfUpdates`, both
sums being `real` sums. -/
def Bagging.lossLoop {Model Vec : Type} (bagging : real) (cat : List Nat)
    (labels : List Int) (lr : real) :
    List (LossLayer Model Vec) → Nat → LossRun Model → LossRun Model
  | [], _, st => st
  | base :: rest, i, st =>
    if bagging < 1 ∧ hashInput (to_string (i : Int) ++ cat) < bagging then
      Bagging.lossLoop bagging cat labels lr rest (i + 1) st
    else
      let out := base.loss labels lr st.model
      Bagging.lossLoop bagging cat labels lr rest (i + 1)
        { lossSum := fadd st.lossSum out.1, numOfUpdates := fadd st.numOfUpdates 1,
          model := out.2, calls := st.calls ++ [(i, labels, lr)] }

/-- The body of `Bagging::loss` up to the `return`: the local state after both
loops. -/
def Bagging.lossRun {Model Vec : Type} (self : Bagging Model Vec) (input : List Int)
    (labels : List Int) (lr : real) (model : Model) : LossRun Model :=
  Bagging.lossLoop self.args_.bagging (catInput self.args_.bagging input) labels lr
    self.baseLayers 0
    { lossSum := 0, numOfUpdates := 0, model := model, calls := [] }

/-- `Bagging::loss`: the returned value `lossSum / args_->nbase` (the `int`
converted to `real`, the quotient rounded), with the state of the model after
the member updates. -/
def Bagging.loss {Model Vec : Type} (self : Bagging Model Vec) (input : List Int)
    (labels : List Int) (lr : real) (model : Model) : real × Model :=
  let run := self.lossRun input labels lr model
  (fdiv run.lossSum (toReal self.args_.nbase), run.model)

/-! ## `Bagging::findKBest` -/

/-- `std::set<int32_t>::insert` on a set kept as its ascending list of
elements. -/
def setInsert (value : Int) : List Int → List Int
  | [] => [value]
  | x :: xs =>
    if value < x then value :: x :: xs
    else if x < value then x :: setInsert value xs
    else x :: xs

/-- `label_freq[key] = x` on a `std::unordered_map<int32_t, real>` kept as a
list of entries with distinct keys. -/
def mapAssign (key : Int) (x : real) : List (Int × real) → List (Int × real)
  | [] => [(key, x)]
  | e :: es => if e.1 = key then (key, x) :: es else e :: mapAssign key x es

/-- `label_freq[key] += x`, the sum being a `real` sum; a key that is absent
is first inserted with the value `0`. -/
def mapAdd (key : Int) (x : real) : List (Int × real) → List (Int × real)
  | [] => [(key, fadd 0 x)]
  | e :: es => if e.1 = key then (key, fadd e.2 x) :: es else e :: mapAdd key x es

/-- The order in which a range-for visits a `std::unordered_map`.  The
standard leaves it unspecified: it is some rearrangement of the entries. -/
structure HashOrder where
  order : List (Int × real) → List (Int × real)
  perm : ∀ m, (order m).Perm m

/-- `operator<` of `std::pair<real, int32_t>`: lexicographic, first on the
probability, then on the label id. -/
def pairLt (a b : real × Int) : Prop :=
  a.1 < b.1 ∨ (¬ b.1 < a.1 ∧ a.2 < b.2)

instance pairLt.decidable : DecidableRel pairLt := fun a b => by
  unfold pairLt; infer_instance

/-- The relation "not after" of a sorted range: `b < a` does not hold. -/
def pairLe (a b : real × Int) : Prop := ¬ pairLt b a

instance pairLe.decidable : DecidableRel pairLe := fun a b => by
  unfold pairLe; infer_instance

/-- `std::sort(heap.rbegin(), heap.rend())`: the reversed range is put in
ascending order of `operator<`.  Two pairs that are not ordered by `operator<`
are equal, so the sorted range is the same whatever algorithm sorts it;
insertion sort stands for `std::sort`. -/
def sortReversed (heap : List (real × Int)) : List (real × Int) :=
  (List.insertionSort pairLe heap.reverse).reverse

/-- `heap.resize(count)`: a longer vector is cut to `count` entries, a
shorter one is filled with value-initialised pairs `(0.0, 0)`.  A negative
`int32_t` count converts to a size beyond `max_size()` and the call throws. -/
def resize (heap : List (real × Int)) (count : Int) : Option (List (real × Int)) :=
  if count < 0 then none
  else some (heap.take count.toNat ++ List.replicate (count.toNat - heap.length) ((0 : real), (0 : Int)))

/-- A loop `for (int i = 0; i < n; i++)` whose body works on `baseLayers[i]`.
Indexing past the end of the vector is undefined behaviour. -/
def forBase {Model Vec σ : Type} (baseLayers : List (LossLayer Model Vec)) (n : Nat)
    (body : σ → LossLayer Model Vec → σ) (init : σ) : Option σ :=
  (List.range n).foldlM (fun st i => (baseLayers[i]?).map (body st)) init

/-- Body of the first loop of `findKBest`, on the pair (`heap`, `label_set`):
the container is cleared, the member writes its own shortlist, and the label
of every entry is inserted into `label_set`. -/
def gatherStep {Model Vec : Type} (top_k : Int) (hidden : Vec) (model : Model)
    (st : List (real × Int) × List Int) (base : LossLayer Model Vec) :
    List (real × Int) × List Int :=
  let heap := base.findKBest top_k [] hidden model
  (heap, heap.foldl (fun label_set value => setInsert value.2 label_set) st.2)

/-- Body of the second loop of `findKBest`, on `label_freq`: the member is
asked for the probability of every label of `label_set`, which is added to
that label's entry. -/
def fuseStep {Model Vec : Type} (label_set : List Int) (hidden : Vec) (model : Model)
    (label_freq : List (Int × real)) (base : LossLayer Model Vec) : List (Int × real) :=
  label_set.foldl (fun freq value => mapAdd value (base.getLabelP value hidden model) freq)
    label_freq

/-- The first loop of `Bagging::findKBest`: the pair (`heap`, `label_set`)
after every member has been asked for its own shortlist. -/
def Bagging.gather {Model Vec : Type} (self : Bagging Model Vec) (top_k : Int)
    (heap : List (real × Int)) (hidden : Vec) (model : Model) :
    Option (List (real × Int) × List Int) :=
  forBase self.baseLayers self.args_.nbase.toNat (gatherStep top_k hidden model) (heap, [])

/-- `Bagging::findKBest`; `heap` is the content of the output container on
entry, the result its content on return.  After the first loop the container
is cleared, `label_freq` gets the entry `0.0` for every label of `label_set`,
the second loop adds the members' probabilities, every entry of `label_freq`
is pushed as the pair (sum / `nbase`, label), and the container is sorted and
resized to `top_k`. -/
def Bagging.findKBest {Model Vec : Type} (self : Bagging Model Vec) (order : HashOrder)
    (top_k : Int) (heap : List (real × Int)) (hidden : Vec) (model : Model) :
    Option (List (real × Int)) :=
  match self.gather top_k heap hidden model with
  | none => none
  | some gathered =>
    let label_set := gathered.2
    let label_freq0 := label_set.foldl (fun freq value => mapAssign value 0 freq) []
    match forBase self.baseLayers self.args_.nbase.toNat (fuseStep label_set hidden model)
        label_freq0 with
    | none => none
    | some label_freq =>
      let filled := (order.order label_freq).foldl
        (fun h elem => h ++ [(fdiv elem.2 (toReal self.args_.nbase), elem.1)]) []
      resize (sortReversed filled) top_k

/-! ## `Bagging::save` and `Bagging::load` -/

/-- `Bagging::save`: every member writes its own serialisation to the stream,
in member order.  A stream is the list of the bytes written so far;
`baseSave` (the member's own `save`, defined outside this file) gives the
bytes one member writes. -/
def Bagging.save {Model Vec : Type} (self : Bagging Model Vec)
    (baseSave : LossLayer Model Vec → List Nat) (out : List Nat) : List Nat :=
  self.baseLayers.foldl (fun stream base => stream ++ baseSave base) out

/-- The loop of `Bagging::load`, with `n` iterations left: a member is built
with the factory, reads itself from the stream, and is appended to
`baseLayers`.  `baseLoad` (the member's own `load`, defined outside this file)
gives the member as read and the bytes it leaves in the stream. -/
def Bagging.loadLoop {Model Vec Env : Type}
    (lossLayerFactory : Args → Nat → Env → LossLayer Model Vec × Env)
    (baseLoad : LossLayer Model Vec → List Nat → LossLayer Model Vec × List Nat)
    (args_ : Args) :
    Nat → List (LossLayer Model Vec) → List Nat → Env →
      List (LossLayer Model Vec) × List Nat × Env
  | 0, baseLayers, stream, env => (baseLayers, stream, env)
  | n + 1, baseLayers, stream, env =>
    let made := lossLayerFactory args_ args_.loss env
    let loaded := baseLoad made.1 stream
    Bagging.loadLoop lossLayerFactory baseLoad args_ n (baseLayers ++ [loaded.1]) loaded.2
      made.2

/-- `Bagging::load`: the loop runs `args_->nbase` times; no other data member
is written. -/
def Bagging.load {Model Vec Env : Type} (self : Bagging Model Vec)
    (lossLayerFactory : Args → Nat → Env → LossLayer Model Vec × Env)
    (baseLoad : LossLayer Model Vec → List Nat → LossLayer Model Vec × List Nat)
    (stream : List Nat) (env : Env) : Bagging Model Vec × List Nat × Env :=
  let done := Bagging.loadLoop lossLayerFactory baseLoad self.args_ self.args_.nbase.toNat
    self.baseLayers stream env
  ({ self with baseLayers := done.1 }, done.2.1, done.2.2)

/-! ## Reference definitions used to state the properties -/

/-- The dropout key of member `i`: the decimal index, `&`, and then `_`
followed by the decimal feature id for every input feature in order. -/
def dropoutKey (i : Nat) (input : List Int) : List Nat :=
  to_string (i : Int) ++ 38 :: (input.map (fun f => 95 :: to_string f)).flatten

/-- Member `i` is included for dropout parameter `p` and `input` unless
`p < 1` and the hash of its key is below `p`. -/
def included (p : real) (input : List Int) (i : Nat) : Prop :=
  ¬ (p < 1 ∧ hashInput (dropoutKey i input) < p)

instance included.decidable (p : real) (input : List Int) (i : Nat) :
    Decidable (included p input i) := by
  unfold included; infer_instance

/-- The included members among `baseLayers`, each with its index, the first
element of `baseLayers` having index `i`. -/
def includedFrom {Model Vec : Type} (p : real) (input : List Int) (i : Nat)
    (baseLayers : List (LossLayer Model Vec)) : List (Nat × LossLayer Model Vec) :=
  (baseLayers.enumFrom i).filter (fun ib => decide (included p input ib.1))

/-- The losses returned by the given members when each is invoked in turn on
the model state left by the one before. -/
def memberLosses {Model Vec : Type} (labels : List Int) (lr : real) :
    List (LossLayer Model Vec) → Model → List real
  | [], _ => []
  | base :: rest, model =>
    (base.loss labels lr model).1 :: memberLosses labels lr rest (base.loss labels lr model).2

/-- The model state after the given members have been invoked in turn. -/
def modelAfter {Model Vec : Type} (labels : List Int) (lr : real) :
    List (LossLayer Model Vec) → Model → Model
  | [], model => model
  | base :: rest, model => modelAfter labels lr rest (base.loss labels lr model).2

/-- The sum of a list of `real` values in `real` arithmetic: the values are
added one after the other to `0`, every addition rounded. -/
def floatSum (values : List real) : real :=
  values.foldl fadd 0

/-- No addition rounds when the given values are added one after the other
to `acc`: every `real` sum is the exact sum. -/
def exactSum : real → List real → Prop
  | _, [] => True
  | acc, x :: xs => fadd acc x = acc + x ∧ exactSum (acc + x) xs

/-- The averaged probability of `label`: the sum over the given members, in
member order, of `getLabelP(label)`, divided by `nbase`, in `real`
arithmetic. -/
def avgProb {Model Vec : Type} (baseLayers : List (LossLayer Model Vec)) (nbase : Int)
    (hidden : Vec) (model : Model) (label : Int) : real :=
  fdiv (floatSum (baseLayers.map (fun base => base.getLabelP label hidden model)))
    (toReal nbase)

/-- The candidate set of `findKBest`: `label_set` after every member of
`baseLayers` has contributed the labels of its own shortlist. -/
def candidateSet {Model Vec : Type} (baseLayers : List (LossLayer Model Vec)) (top_k : Int)
    (hidden : Vec) (model : Model) : List Int :=
  (baseLayers.foldl (gatherStep top_k hidden model) ([], [])).2

/-- The fused list of `findKBest` before it is resized: one pair (averaged
probability, label) for every candidate label, sorted. -/
def fusedList {Model Vec : Type} (baseLayers : List (LossLayer Model Vec)) (nbase : Int)
    (top_k : Int) (hidden : Vec) (model : Model) : List (real × Int) :=
  sortReversed ((candidateSet baseLayers top_k hidden model).map
    (fun L => (avgProb baseLayers nbase hidden model L, L)))

/-- The two results the specification accepts when the candidate set
`label_set` has fewer labels than requested: the list is clamped to the size of
the candidate set, or every slot after the candidates holds a sentinel with
probability `0` and a label id that marks "no candidate", which is then not
the id of any candidate label. -/
def definedShortResult (label_set : List Int) (out : List (real × Int)) : Prop :=
  out.length = label_set.length ∨
    ∃ sentinel : Int, sentinel ∉ label_set ∧
      ∀ e ∈ out.drop label_set.length, e = ((0 : real), sentinel)

/-- The visiting order that keeps the entries as they are stored. -/
def storedOrder : HashOrder :=
  { order := fun m => m, perm := fun m => List.Perm.refl m }

/-- The visiting order that takes the stored entries back to front. -/
def backwardOrder : HashOrder :=
  { order := fun m => m.reverse, perm := fun m => List.reverse_perm m }

/-- Every member's shift is the sum of the sizes of the members before it, as
an `int32_t` holds it. -/
def shiftsArePrefixSums {Model Vec : Type} (baseLayers : List (LossLayer Model Vec)) : Prop :=
  ∀ (i : Nat) (hi : i < baseLayers.length),
    (baseLayers.get ⟨i, hi⟩).shift
      = wrapInt32 ((baseLayers.take i).map LossLayer.getSize).sum

/-- The 32-bit FNV-1a fold: start at `2166136261` and, for each byte `b` in
order, set `h := ((h xor b) * 16777619) mod 2^32`. -/
def fnv1a (s : List Nat) : Nat :=
  s.foldl (fun h b => ((h ^^^ b) * 16777619) % 2 ^ 32) 2166136261

/-- The coordinator `b` with the dropout parameter `args_->bagging` set to
`p`. -/
def Bagging.withBagging {Model Vec : Type} (b : Bagging Model Vec) (p : real) :
    Bagging Model Vec :=
  { b with args_ := { b.args_ with bagging := p } }

/-- The indices of the members whose loss a call of `Bagging::loss` invokes,
in the order of the calls. -/
def Bagging.invoked {Model Vec : Type} (b : Bagging Model Vec) (input labels : List Int)
    (lr : real) (model : Model) : List Nat :=
  (b.lossRun input labels lr model).calls.map (fun c => c.1)

/-! ## Sample members and coordinators -/

/-- A member of size `sz` whose loss is `l` and adds one to a counter kept as
the model state; it shortlists nothing. -/
def sampleBase (sz : Int) (l : real) : LossLayer Nat Unit :=
  { shift := 0, size := sz, multilabel := true,
    loss := fun _ _ m => (l, m + 1),
    findKBest := fun _ _ _ _ => [],
    getLabelP := fun _ _ _ => 0 }

/-- A factory that numbers the members it makes: the member made in state
`env` has size `env + 1` and loss `env`. -/
def sampleFactory (_ : Args) (_ : Nat) (env : Nat) : LossLayer Nat Unit × Nat :=
  (sampleBase (env + 1) env, env + 1)

/-- A factory whose first member has size `2147483647` and loss `1`, and
whose later members have size `1` and loss `0`. -/
def edgeFactory (_ : Args) (_ : Nat) (env : Nat) : LossLayer Nat Unit × Nat :=
  (if env = 0 then sampleBase 2147483647 1 else sampleBase 1 0, env + 1)

/-- A member set-up that leaves the member as the factory made it. -/
def sampleSetup (base : LossLayer Nat Unit) (_ : Args) (_ : Unit) (env : Nat) :
    LossLayer Nat Unit × Nat :=
  (base, env)

/-- A member serialisation of two bytes: the size and the loss of a sample
member (both below 256 in the samples). -/
def sampleSave (base : LossLayer Nat Unit) : List Nat :=
  [base.size.toNat, (base.loss [] 0 0).1.num.toNat]

/-- The member `load` that goes with `sampleSave`: it reads two bytes and
gives the sample member of that size and loss. -/
def sampleLoad (fresh : LossLayer Nat Unit) : List Nat → LossLayer Nat Unit × List Nat
  | sz :: l :: rest => (sampleBase sz l, rest)
  | rest => (fresh, rest)

/-- A member that shortlists the given entries, whatever `top_k` is, and
answers `getLabelP` with the probability listed for the label in `probs`
(`0` for a label that is not listed). -/
def tableBase (shortlist : List (real × Int)) (probs : List (Int × real)) :
    LossLayer Unit Unit :=
  { shift := 0, size := 1, multilabel := true,
    loss := fun _ _ m => (0, m),
    findKBest := fun _ _ _ _ => shortlist,
    getLabelP := fun label _ _ => (probs.lookup label).getD 0 }

/-- Scenario C: two members, member 0 with the shortlist `{1: 0.6, 2: 0.4}` and
member 1 with `{2: 0.5, 3: 0.9}`, the probabilities being the `real` values
nearest to these decimals. -/
def scenarioC : Bagging Unit Unit :=
  { args_ := { nbase := 2, bagging := 1, randomTree := true, loss := 0 },
    sizeSum := 2, multilabel := true,
    baseLayers :=
      [tableBase [(roundReal (3/5), 1), (roundReal (2/5), 2)]
         [(1, roundReal (3/5)), (2, roundReal (2/5))],
       tableBase [(roundReal (9/10), 3), (1/2, 2)] [(2, 1/2), (3, roundReal (9/10))]] }

/-- Two members with exactly representable probabilities: member 0 with the
shortlist `{1: 0.5, 2: 0.25}` and member 1 with `{2: 0.5, 3: 0.75}`; labels `2`
and `3` both average `0.375`. -/
def scenarioTie : Bagging Unit Unit :=
  { args_ := { nbase := 2, bagging := 1, randomTree := true, loss := 0 },
    sizeSum := 2, multilabel := true,
    baseLayers :=
      [tableBase [(1/2, 1), (1/4, 2)] [(1, 1/2), (2, 1/4)],
       tableBase [(3/4, 3), (1/2, 2)] [(2, 1/2), (3, 3/4)]] }

/-- One member that shortlists label `0` only, with probability `1/2`. -/
def scenarioZero : Bagging Unit Unit :=
  { args_ := { nbase := 1, bagging := 1, randomTree := true, loss := 0 },
    sizeSum := 1, multilabel := true,
    baseLayers := [tableBase [(1/2, 0)] [(0, 1/2)]] }

/-- Two members that both shortlist label `0` only. -/
def scenarioDZero : Bagging Unit Unit :=
  { args_ := { nbase := 2, bagging := 1, randomTree := true, loss := 0 },
    sizeSum := 2, multilabel := true,
    baseLayers :=
      [tableBase [(1/2, 0)] [(0, 1/2)], tableBase [(1/4, 0)] [(0, 1/4)]] }

/-- Scenario D: two members that both shortlist label `1` only. -/
def scenarioD : Bagging Unit Unit :=
  { args_ := { nbase := 2, bagging := 1, randomTree := true, loss := 0 },
    sizeSum := 2, multilabel := true,
    baseLayers :=
      [tableBase [(1/2, 1)] [(1, 1/2)], tableBase [(1/4, 1)] [(1, 1/4)]] }

/-! ## Arithmetic of `real` -/

theorem bitLengthAux_zero (fuel : Nat) : bitLengthAux fuel 0 = 0 := by
  cases fuel <;> simp [bitLengthAux]

theorem bitLengthAux_spec :
    ∀ (fuel n : Nat), n ≤ fuel →
      n < 2 ^ bitLengthAux fuel n ∧ (n ≠ 0 → 2 ^ (bitLengthAux fuel n - 1) ≤ n) := by
  intro fuel
  induction fuel with
  | zero =>
    intro n hn
    have h0 : n = 0 := by omega
    subst h0
    simp [bitLengthAux]
  | succ fuel ih =>
    intro n hn
    by_cases h0 : n = 0
    · subst h0; simp [bitLengthAux]
    · have hhalf : n / 2 ≤ fuel := by omega
      obtain ⟨hlt, hge⟩ := ih (n / 2) hhalf
      simp only [bitLengthAux, h0, if_false, Nat.add_sub_cancel]
      refine ⟨?_, fun _ => ?_⟩
      · rw [Nat.pow_succ]; omega
      · by_cases h2 : n / 2 = 0
        · rw [h2, bitLengthAux_zero]; simp; omega
        · have hk := hge h2
          have hpos : bitLengthAux fuel (n / 2) ≠ 0 := by
            intro hz
            rw [hz] at hlt
            omega
          have hpow : 2 ^ bitLengthAux fuel (n / 2)
              = 2 * 2 ^ (bitLengthAux fuel (n / 2) - 1) := by
            conv_lhs => rw [← Nat.succ_pred_eq_of_ne_zero hpos]
            rw [Nat.pow_succ, Nat.mul_comm]; rfl
          omega

theorem bitLength_spec (n : Nat) (hn : n ≠ 0) :
    2 ^ (bitLength n - 1) ≤ n ∧ n < 2 ^ bitLength n ∧ 1 ≤ bitLength n := by
  have h := bitLengthAux_spec n n (le_refl _)
  refine ⟨h.2 hn, h.1, ?_⟩
  by_contra hlt
  have hz : bitLength n = 0 := by omega
  have h1 := h.1
  unfold bitLength at hz
  rw [hz] at h1
  omega

theorem floorLog2_spec (a : ℚ) (ha : 0 < a) :
    (2 : ℚ) ^ floorLog2 a ≤ a ∧ a < (2 : ℚ) ^ (floorLog2 a + 1) := by
  have hnum : 0 < a.num := Rat.num_pos.mpr ha
  have hN : a.num.toNat ≠ 0 := by omega
  have hD : a.den ≠ 0 := a.den_nz
  obtain ⟨hNlo, hNhi, hN1⟩ := bitLength_spec a.num.toNat hN
  obtain ⟨hDlo, hDhi, hD1⟩ := bitLength_spec a.den hD
  have hDpos : (0 : ℚ) < (a.den : ℚ) := by exact_mod_cast Nat.pos_of_ne_zero hD
  have hval : a = (a.num.toNat : ℚ) / (a.den : ℚ) := by
    have h1 : ((a.num.toNat : Int) : ℚ) = (a.num : ℚ) := by
      rw [Int.toNat_of_nonneg (le_of_lt hnum)]
    have h2 : ((a.num.toNat : Nat) : ℚ) = ((a.num.toNat : Int) : ℚ) := by push_cast; rfl
    rw [h2, h1, Rat.num_div_den]
  have two_pos : (0 : ℚ) < 2 := by norm_num
  have two_ne : (2 : ℚ) ≠ 0 := by norm_num
  have hNlo' : (2 : ℚ) ^ ((bitLength a.num.toNat : Int) - 1) ≤ (a.num.toNat : ℚ) := by
    have hcast : ((bitLength a.num.toNat : Int) - 1) = ((bitLength a.num.toNat - 1 : Nat) : Int) := by
      omega
    rw [hcast, zpow_natCast]
    exact_mod_cast hNlo
  have hNhi' : (a.num.toNat : ℚ) < (2 : ℚ) ^ (bitLength a.num.toNat : Int) := by
    rw [zpow_natCast]; exact_mod_cast hNhi
  have hDlo' : (2 : ℚ) ^ ((bitLength a.den : Int) - 1) ≤ (a.den : ℚ) := by
    have hcast : ((bitLength a.den : Int) - 1) = ((bitLength a.den - 1 : Nat) : Int) := by
      omega
    rw [hcast, zpow_natCast]
    exact_mod_cast hDlo
  have hDhi' : (a.den : ℚ) < (2 : ℚ) ^ (bitLength a.den : Int) := by
    rw [zpow_natCast]; exact_mod_cast hDhi
  unfold floorLog2
  simp only
  split_ifs with hle
  · refine ⟨hle, ?_⟩
    have h1 : (a.num.toNat : ℚ) / (a.den : ℚ)
        < (2 : ℚ) ^ ((bitLength a.num.toNat : Int) - (bitLength a.den : Int) + 1) := by
      rw [div_lt_iff₀ hDpos]
      calc (a.num.toNat : ℚ) < (2 : ℚ) ^ (bitLength a.num.toNat : Int) := hNhi'
        _ = (2 : ℚ) ^ ((bitLength a.num.toNat : Int) - (bitLength a.den : Int) + 1)
              * (2 : ℚ) ^ ((bitLength a.den : Int) - 1) := by
            rw [← zpow_add₀ two_ne]; congr 1; ring
        _ ≤ (2 : ℚ) ^ ((bitLength a.num.toNat : Int) - (bitLength a.den : Int) + 1)
              * (a.den : ℚ) :=
            mul_le_mul_of_nonneg_left hDlo' (le_of_lt (zpow_pos two_pos _))
    exact lt_of_eq_of_lt hval h1
  · refine ⟨?_, ?_⟩
    · have h1 : (2 : ℚ) ^ ((bitLength a.num.toNat : Int) - (bitLength a.den : Int) - 1)
          ≤ (a.num.toNat : ℚ) / (a.den : ℚ) := by
        rw [le_div_iff₀ hDpos]
        calc (2 : ℚ) ^ ((bitLength a.num.toNat : Int) - (bitLength a.den : Int) - 1)
                * (a.den : ℚ)
            ≤ (2 : ℚ) ^ ((bitLength a.num.toNat : Int) - (bitLength a.den : Int) - 1)
                * (2 : ℚ) ^ (bitLength a.den : Int) :=
              mul_le_mul_of_nonneg_left (le_of_lt hDhi') (le_of_lt (zpow_pos two_pos _))
          _ = (2 : ℚ) ^ ((bitLength a.num.toNat : Int) - 1) := by
              rw [← zpow_add₀ two_ne]; congr 1; ring
          _ ≤ (a.num.toNat : ℚ) := hNlo'
      exact le_of_le_of_eq h1 hval.symm
    · have : (bitLength a.num.toNat : Int) - (bitLength a.den : Int) - 1 + 1
          = (bitLength a.num.toNat : Int) - (bitLength a.den : Int) := by ring
      rw [this]
      exact not_le.mp hle

theorem roundHalfEven_near (s : ℚ) (hs : 0 ≤ s) :
    |(roundHalfEven s : ℚ) - s| ≤ 1 / 2 := by
  have hfl : (0 : Int) ≤ Rat.floor s := by
    have : (0 : Int) ≤ ⌊s⌋ := Int.floor_nonneg.mpr hs
    simpa using this
  have hcast : (((Rat.floor s).toNat : Nat) : ℚ) = ((Rat.floor s : Int) : ℚ) := by
    have : (((Rat.floor s).toNat : Nat) : Int) = Rat.floor s := Int.toNat_of_nonneg hfl
    exact_mod_cast congrArg (fun z : Int => (z : ℚ)) this
  have hlo : ((Rat.floor s : Int) : ℚ) ≤ s := by
    exact Int.floor_le s
  have hhi : s < ((Rat.floor s : Int) : ℚ) + 1 := by
    exact Int.lt_floor_add_one s
  unfold roundHalfEven
  simp only
  split_ifs with h1 h2 h3
  · rw [hcast] at h1 ⊢
    rw [abs_le]; constructor <;> linarith
  · rw [hcast] at h2
    push_cast
    rw [hcast, abs_le]; constructor <;> linarith
  · rw [hcast] at h1 h2 ⊢
    rw [abs_le]; constructor <;> linarith
  · rw [hcast] at h1 h2
    push_cast
    rw [hcast, abs_le]; constructor <;> linarith

/-! ## The loops of `Bagging::loss` -/

theorem catInput_foldl (input : List Int) (acc : List Nat) :
    input.foldl (fun cat i => cat ++ (95 :: to_string i)) acc
      = acc ++ (input.map (fun f => 95 :: to_string f)).flatten := by
  induction input generalizing acc with
  | nil => simp
  | cons f fs ih => simp [ih]

theorem key_eq_dropoutKey (p : real) (input : List Int) (i : Nat) (hp : p < 1) :
    to_string (i : Int) ++ catInput p input = dropoutKey i input := by
  simp [catInput, hp, dropoutKey, catInput_foldl]

theorem skip_iff_not_included (p : real) (input : List Int) (i : Nat) :
    (p < 1 ∧ hashInput (to_string (i : Int) ++ catInput p input) < p) ↔
      ¬ included p input i := by
  unfold included
  by_cases hp : p < 1
  · rw [key_eq_dropoutKey p input i hp]; simp
  · simp [hp]

theorem lossLoop_eq {Model Vec : Type} (p : real) (input labels : List Int) (lr : real) :
    ∀ (baseLayers : List (LossLayer Model Vec)) (i : Nat) (st : LossRun Model),
      Bagging.lossLoop p (catInput p input) labels lr baseLayers i st =
        { lossSum :=
            (memberLosses labels lr ((includedFrom p input i baseLayers).map Prod.snd)
              st.model).foldl fadd st.lossSum,
          numOfUpdates :=
            (includedFrom p input i baseLayers).foldl (fun count _ => fadd count 1)
              st.numOfUpdates,
          model := modelAfter labels lr ((includedFrom p input i baseLayers).map Prod.snd)
            st.model,
          calls := st.calls ++
            (includedFrom p input i baseLayers).map (fun ib => (ib.1, labels, lr)) } := by
  intro baseLayers
  induction baseLayers with
  | nil => intro i st; simp [Bagging.lossLoop, includedFrom, memberLosses, modelAfter]
  | cons base rest ih =>
    intro i st
    by_cases hinc : included p input i
    · have hskip : ¬ (p < 1 ∧ hashInput (to_string (i : Int) ++ catInput p input) < p) := by
        rw [skip_iff_not_included]; simpa using hinc
      rw [Bagging.lossLoop, if_neg hskip, ih]
      simp [includedFrom, List.enumFrom_cons, List.filter_cons, hinc, memberLosses, modelAfter]
    · have hskip : (p < 1 ∧ hashInput (to_string (i : Int) ++ catInput p input) < p) := by
        rw [skip_iff_not_included]; exact hinc
      rw [Bagging.lossLoop, if_pos hskip, ih]
      simp [includedFrom, List.enumFrom_cons, List.filter_cons, hinc]

theorem lossRun_eq {Model Vec : Type} (self : Bagging Model Vec) (input labels : List Int)
    (lr : real) (model : Model) :
    self.lossRun input labels lr model =
      { lossSum := floatSum (memberLosses labels lr
            ((includedFrom self.args_.bagging input 0 self.baseLayers).map Prod.snd) model),
        numOfUpdates :=
          (includedFrom self.args_.bagging input 0 self.baseLayers).foldl
            (fun count _ => fadd count 1) 0,
        model := modelAfter labels lr
            ((includedFrom self.args_.bagging input 0 self.baseLayers).map Prod.snd) model,
        calls := (includedFrom self.args_.bagging input 0 self.baseLayers).map
            (fun ib => (ib.1, labels, lr)) } := by
  rw [Bagging.lossRun, lossLoop_eq]; simp [floatSum]

theorem foldl_fadd_exact :
    ∀ (values : List real) (acc : real), exactSum acc values →
      values.foldl fadd acc = acc + values.sum := by
  intro values
  induction values with
  | nil => intro acc _; simp
  | cons x xs ih =>
    intro acc h
    obtain ⟨hx, hxs⟩ := h
    simp only [List.foldl_cons, List.sum_cons, hx, ih (acc + x) hxs]
    ring

theorem hashInput_nonneg (str : List Nat) : 0 ≤ hashInput str := by
  unfold hashInput; positivity

theorem includedFrom_all {Model Vec : Type} (p : real) (input : List Int)
    (hall : ∀ i, included p input i) (i : Nat) (baseLayers : List (LossLayer Model Vec)) :
    includedFrom p input i baseLayers = baseLayers.enumFrom i := by
  unfold includedFrom
  simp [List.filter_eq_self, hall]

theorem included_of_one_le (p : real) (input : List Int) (hp : 1 ≤ p) (i : Nat) :
    included p input i := by
  unfold included
  intro h
  exact absurd h.1 (not_lt.mpr hp)

theorem included_of_zero (input : List Int) (i : Nat) : included 0 input i := by
  unfold included
  intro h
  exact absurd h.2 (not_lt.mpr (hashInput_nonneg _))

theorem map_snd_enumFrom {α : Type} (l : List α) (i : Nat) :
    (l.enumFrom i).map Prod.snd = l := by
  induction l generalizing i with
  | nil => rfl
  | cons a l ih => simp [List.enumFrom_cons, ih]

theorem map_fst_enumFrom {α : Type} (l : List α) (i : Nat) :
    (l.enumFrom i).map Prod.fst = List.range' i l.length := by
  induction l generalizing i with
  | nil => rfl
  | cons a l ih => simp [List.enumFrom_cons, ih, List.range'_succ]

/-! ## `Bagging::setup` -/

theorem wrapInt32_add (a b : Int) : wrapInt32 (wrapInt32 a + b) = wrapInt32 (a + b) := by
  unfold wrapInt32
  omega

theorem wrapInt32_of_range (x : Int) (hlo : -2147483648 ≤ x) (hhi : x < 2147483648) :
    wrapInt32 x = x := by
  unfold wrapInt32
  omega

theorem shiftsArePrefixSums_snoc {Model Vec : Type} (baseLayers : List (LossLayer Model Vec))
    (base : LossLayer Model Vec) (hinv : shiftsArePrefixSums baseLayers)
    (hbase : base.shift = wrapInt32 (baseLayers.map LossLayer.getSize).sum) :
    shiftsArePrefixSums (baseLayers ++ [base]) := by
  intro i hi
  simp only [List.length_append, List.length_singleton] at hi
  by_cases hlt : i < baseLayers.length
  · have h1 := hinv i hlt
    simp only [List.get_eq_getElem] at h1 ⊢
    rw [List.getElem_append_left hlt, List.take_append_of_le_length (Nat.le_of_lt hlt)]
    exact h1
  · have hieq : i = baseLayers.length := by omega
    subst hieq
    simp [hbase]

theorem setupLoop_spec {Model Vec Dict Env : Type}
    (lossLayerFactory : Args → Nat → Env → LossLayer Model Vec × Env)
    (baseSetup : LossLayer Model Vec → Args → Dict → Env → LossLayer Model Vec × Env)
    (args_ : Args) (dict : Dict) :
    ∀ (n : Nat) (sizeSum : Int) (baseLayers : List (LossLayer Model Vec)) (env : Env),
      sizeSum = wrapInt32 (baseLayers.map LossLayer.getSize).sum →
      shiftsArePrefixSums baseLayers →
      ((Bagging.setupLoop lossLayerFactory baseSetup args_ dict n sizeSum baseLayers env).2.1.length
          = baseLayers.length + n) ∧
      ((Bagging.setupLoop lossLayerFactory baseSetup args_ dict n sizeSum baseLayers env).1
          = wrapInt32 ((Bagging.setupLoop lossLayerFactory baseSetup args_ dict n sizeSum
              baseLayers env).2.1.map LossLayer.getSize).sum) ∧
      shiftsArePrefixSums
        (Bagging.setupLoop lossLayerFactory baseSetup args_ dict n sizeSum baseLayers env).2.1 := by
  intro n
  induction n with
  | zero =>
    intro sizeSum baseLayers env hsum hinv
    exact ⟨by simp [Bagging.setupLoop], by simpa [Bagging.setupLoop] using hsum,
      by simpa [Bagging.setupLoop] using hinv⟩
  | succ n ih =>
    intro sizeSum baseLayers env hsum hinv
    rw [Bagging.setupLoop]
    have h := ih
      (wrapInt32 (sizeSum + ((baseSetup (lossLayerFactory args_ args_.loss env).1 args_ dict
          (lossLayerFactory args_ args_.loss env).2).1.setShift sizeSum).getSize))
      (baseLayers ++ [(baseSetup (lossLayerFactory args_ args_.loss env).1 args_ dict
          (lossLayerFactory args_ args_.loss env).2).1.setShift sizeSum])
      (baseSetup (lossLayerFactory args_ args_.loss env).1 args_ dict
          (lossLayerFactory args_ args_.loss env).2).2
      (by simp [hsum, wrapInt32_add])
      (shiftsArePrefixSums_snoc _ _ hinv (by simp [LossLayer.setShift, hsum]))
    refine ⟨?_, h.2.1, h.2.2⟩
    rw [h.1]; simp; omega

theorem setup_ok {Model Vec Dict Env : Type}
    (lossLayerFactory : Args → Nat → Env → LossLayer Model Vec × Env)
    (baseSetup : LossLayer Model Vec → Args → Dict → Env → LossLayer Model Vec × Env)
    (args : Args) (dict : Dict) (env : Env) (sizeSum0 : Int) (multilabel0 : Bool)
    (hN : 0 < args.nbase) :
    ∃ (b : Bagging Model Vec) (env1 : Env),
      (Bagging.new args sizeSum0 multilabel0).setup lossLayerFactory baseSetup args dict env
        = some (b, env1) ∧
      b.args_ = { args with randomTree := true } ∧
      b.baseLayers.length = args.nbase.toNat ∧
      b.sizeSum = wrapInt32 (b.baseLayers.map LossLayer.getSize).sum ∧
      shiftsArePrefixSums b.baseLayers := by
  have h := setupLoop_spec lossLayerFactory baseSetup { args with randomTree := true } dict
    args.nbase.toNat 0 [] env (by simp [wrapInt32]) (by intro i hi; simp at hi)
  generalize hdone : Bagging.setupLoop lossLayerFactory baseSetup
    { args with randomTree := true } dict args.nbase.toNat 0 [] env = done at h
  obtain ⟨hlen, hsum, hinv⟩ := h
  simp only [List.length_nil, Nat.zero_add] at hlen
  have hne : 0 < done.2.1.length := by omega
  refine ⟨{ args_ := { args with randomTree := true }, sizeSum := done.1,
            multilabel := (done.2.1.get ⟨0, hne⟩).isMultilabel, baseLayers := done.2.1 },
          done.2.2, ?_, rfl, hlen, hsum, hinv⟩
  have hfirst : done.2.1[0]? = some (done.2.1.get ⟨0, hne⟩) := by
    simp [List.getElem?_eq_getElem hne]
  simp only [Bagging.setup, Bagging.new, gt_iff_lt, hN, if_true, hdone, hfirst]

theorem setup_wellFormed {Model Vec Dict Env : Type}
    (lossLayerFactory : Args → Nat → Env → LossLayer Model Vec × Env)
    (baseSetup : LossLayer Model Vec → Args → Dict → Env → LossLayer Model Vec × Env)
    (args : Args) (dict : Dict) (env : Env) (sizeSum0 : Int) (multilabel0 : Bool)
    (b : Bagging Model Vec) (env1 : Env)
    (hset : (Bagging.new args sizeSum0 multilabel0).setup lossLayerFactory baseSetup args dict
      env = some (b, env1)) :
    (b.baseLayers.length : Int) = b.args_.nbase := by
  by_cases hN : 0 < args.nbase
  · obtain ⟨b2, env2, hset2, hargs, hlen, -, -⟩ :=
      setup_ok lossLayerFactory baseSetup args dict env sizeSum0 multilabel0 hN
    rw [hset2] at hset
    have hb : b2 = b := congrArg Prod.fst (Option.some.inj hset)
    subst hb
    rw [hlen, hargs]
    simp only
    omega
  · simp [Bagging.setup, hN] at hset

theorem includedFrom_indices {Model Vec : Type} (p : real) (input : List Int) :
    ∀ (baseLayers : List (LossLayer Model Vec)) (i : Nat),
      (includedFrom p input i baseLayers).map Prod.fst =
        (List.range' i baseLayers.length).filter (fun j => decide (included p input j)) := by
  intro baseLayers
  induction baseLayers with
  | nil => intro i; simp [includedFrom]
  | cons base rest ih =>
    intro i
    have h := ih (i + 1)
    unfold includedFrom at h ⊢
    by_cases hinc : included p input i
    · simp [List.enumFrom_cons, List.filter_cons, hinc, List.range'_succ, h]
    · simp [List.enumFrom_cons, List.filter_cons, hinc, List.range'_succ, h]

/-! ## Properties of `Bagging::loss` -/

/-- C1: for a coordinator set up with `N > 0` members, `Bagging::loss` returns
the sum of the losses returned by the included members divided by the
configured member count `N`, member `i` being included unless `p < 1` and the
hash of its key is below `p`.  The sum and the quotient are those of `real`
arithmetic (`floatSum`, `fdiv`, `N` converted by `toReal`); when no addition
and not the division rounds, the value is the exact sum over the exact `N`. -/
theorem loss_eq_included_sum_div_nbase {Model Vec Dict Env : Type}
    (lossLayerFactory : Args → Nat → Env → LossLayer Model Vec × Env)
    (baseSetup : LossLayer Model Vec → Args → Dict → Env → LossLayer Model Vec × Env)
    (args : Args) (dict : Dict) (env : Env) (sizeSum0 : Int) (multilabel0 : Bool)
    (hN : 0 < args.nbase) :
    ∃ (b : Bagging Model Vec) (env1 : Env),
      (Bagging.new args sizeSum0 multilabel0).setup lossLayerFactory baseSetup args dict env
        = some (b, env1) ∧
      (b.baseLayers.length : Int) = args.nbase ∧
      ∀ (input labels : List Int) (lr : real) (model : Model),
        (b.loss input labels lr model).1 =
          fdiv (floatSum (memberLosses labels lr
            ((includedFrom args.bagging input 0 b.baseLayers).map Prod.snd) model))
            (toReal args.nbase) ∧
        (exactSum 0 (memberLosses labels lr
            ((includedFrom args.bagging input 0 b.baseLayers).map Prod.snd) model) →
          fdiv (memberLosses labels lr
              ((includedFrom args.bagging input 0 b.baseLayers).map Prod.snd) model).sum
              (toReal args.nbase)
            = (memberLosses labels lr
              ((includedFrom args.bagging input 0 b.baseLayers).map Prod.snd) model).sum
              / (args.nbase : real) →
          (b.loss input labels lr model).1 =
            (memberLosses labels lr
              ((includedFrom args.bagging input 0 b.baseLayers).map Prod.snd) model).sum
              / (args.nbase : real)) := by
  obtain ⟨b, env1, hset, hargs, hlen, -, -⟩ :=
    setup_ok lossLayerFactory baseSetup args dict env sizeSum0 multilabel0 hN
  refine ⟨b, env1, hset, ?_, ?_⟩
  · rw [hlen]; omega
  · intro input labels lr model
    have hval : (b.loss input labels lr model).1 =
        fdiv (floatSum (memberLosses labels lr
          ((includedFrom args.bagging input 0 b.baseLayers).map Prod.snd) model))
          (toReal args.nbase) := by
      simp [Bagging.loss, lossRun_eq, hargs]
    refine ⟨hval, ?_⟩
    intro hexact hdiv
    rw [hval, floatSum, foldl_fadd_exact _ 0 hexact, zero_add, hdiv]

/-- C1, at three sample members and dropout parameter `1/2`. -/
theorem loss_eq_included_sum_div_nbase_witness :
    ∃ (b : Bagging Nat Unit) (env1 : Nat),
      (Bagging.new (Args.mk 3 (1/2) false 0) 7 false).setup sampleFactory sampleSetup
        (Args.mk 3 (1/2) false 0) () 0 = some (b, env1) ∧
      (b.baseLayers.length : Int) = (Args.mk 3 (1/2) false 0).nbase ∧
      ∀ (input labels : List Int) (lr : real) (model : Nat),
        (b.loss input labels lr model).1 =
          fdiv (floatSum (memberLosses labels lr
            ((includedFrom (Args.mk 3 (1/2) false 0).bagging input 0 b.baseLayers).map Prod.snd)
              model))
            (toReal (Args.mk 3 (1/2) false 0).nbase) ∧
        (exactSum 0 (memberLosses labels lr
            ((includedFrom (Args.mk 3 (1/2) false 0).bagging input 0 b.baseLayers).map Prod.snd)
              model) →
          fdiv (memberLosses labels lr
              ((includedFrom (Args.mk 3 (1/2) false 0).bagging input 0 b.baseLayers).map
                Prod.snd) model).sum
              (toReal (Args.mk 3 (1/2) false 0).nbase)
            = (memberLosses labels lr
              ((includedFrom (Args.mk 3 (1/2) false 0).bagging input 0 b.baseLayers).map
                Prod.snd) model).sum
              / ((Args.mk 3 (1/2) false 0).nbase : real) →
          (b.loss input labels lr model).1 =
            (memberLosses labels lr
              ((includedFrom (Args.mk 3 (1/2) false 0).bagging input 0 b.baseLayers).map
                Prod.snd) model).sum
              / ((Args.mk 3 (1/2) false 0).nbase : real)) :=
  loss_eq_included_sum_div_nbase sampleFactory sampleSetup (Args.mk 3 (1/2) false 0) () 0 7 false
    (by decide)

/-- C2: with dropout parameter `p ≥ 1.0` every call of `Bagging::loss` invokes
all `N` members (`N` calls, those of the members of index `0 .. N-1`) and
returns the sum of all member losses divided by `N`, the sum and the quotient
being those of `real` arithmetic. -/
theorem loss_no_dropout_includes_all {Model Vec Dict Env : Type}
    (lossLayerFactory : Args → Nat → Env → LossLayer Model Vec × Env)
    (baseSetup : LossLayer Model Vec → Args → Dict → Env → LossLayer Model Vec × Env)
    (args : Args) (dict : Dict) (env : Env) (sizeSum0 : Int) (multilabel0 : Bool)
    (hN : 0 < args.nbase) (hp : 1 ≤ args.bagging) :
    ∃ (b : Bagging Model Vec) (env1 : Env),
      (Bagging.new args sizeSum0 multilabel0).setup lossLayerFactory baseSetup args dict env
        = some (b, env1) ∧
      (b.baseLayers.length : Int) = args.nbase ∧
      ∀ (input labels : List Int) (lr : real) (model : Model),
        ((b.lossRun input labels lr model).calls.length : Int) = args.nbase ∧
        (b.lossRun input labels lr model).calls.map (fun c => c.1)
          = List.range args.nbase.toNat ∧
        (b.loss input labels lr model).1 =
          fdiv (floatSum (memberLosses labels lr b.baseLayers model)) (toReal args.nbase) := by
  obtain ⟨b, env1, hset, hargs, hlen, -, -⟩ :=
    setup_ok lossLayerFactory baseSetup args dict env sizeSum0 multilabel0 hN
  have hcast : (b.baseLayers.length : Int) = args.nbase := by rw [hlen]; omega
  refine ⟨b, env1, hset, hcast, ?_⟩
  intro input labels lr model
  have hall : includedFrom b.args_.bagging input 0 b.baseLayers = b.baseLayers.enumFrom 0 :=
    includedFrom_all _ _ (fun i => included_of_one_le _ _ (by rw [hargs]; exact hp) i) 0 _
  refine ⟨?_, ?_, ?_⟩
  · rw [lossRun_eq, hall]
    simp only [List.length_map, List.enumFrom_length]
    exact hcast
  · rw [lossRun_eq, hall]
    simp only [List.map_map]
    have : ((fun c : Nat × List Int × real => c.1) ∘
        fun ib : Nat × LossLayer Model Vec => (ib.1, labels, lr)) = Prod.fst := rfl
    rw [this, map_fst_enumFrom, hlen, List.range_eq_range']
  · have hbag : b.args_.bagging = args.bagging := by rw [hargs]
    rw [hbag] at hall
    simp [Bagging.loss, lossRun_eq, hall, map_snd_enumFrom, hargs]

/-- C2, at `N = 3`, `p = 1`: the three sample members have the losses `0`,
`1`, `2`. -/
theorem loss_no_dropout_includes_all_witness :
    ∃ (b : Bagging Nat Unit) (env1 : Nat),
      (Bagging.new (Args.mk 3 1 false 0) 7 false).setup sampleFactory sampleSetup
        (Args.mk 3 1 false 0) () 0 = some (b, env1) ∧
      (b.baseLayers.length : Int) = (Args.mk 3 1 false 0).nbase ∧
      ∀ (input labels : List Int) (lr : real) (model : Nat),
        ((b.lossRun input labels lr model).calls.length : Int) = (Args.mk 3 1 false 0).nbase ∧
        (b.lossRun input labels lr model).calls.map (fun c => c.1)
          = List.range (Args.mk 3 1 false 0).nbase.toNat ∧
        (b.loss input labels lr model).1 =
          fdiv (floatSum (memberLosses labels lr b.baseLayers model))
            (toReal (Args.mk 3 1 false 0).nbase) :=
  loss_no_dropout_includes_all sampleFactory sampleSetup (Args.mk 3 1 false 0) () 0 7 false
    (by decide) (le_refl _)

/-- C3: with dropout parameter `p = 0.0` the test `hashInput(key) < p` never
holds, so `Bagging::loss` excludes no member and returns the sum of all member
losses divided by `N`, the sum and the quotient being those of `real`
arithmetic. -/
theorem loss_zero_dropout_includes_all {Model Vec Dict Env : Type}
    (lossLayerFactory : Args → Nat → Env → LossLayer Model Vec × Env)
    (baseSetup : LossLayer Model Vec → Args → Dict → Env → LossLayer Model Vec × Env)
    (args : Args) (dict : Dict) (env : Env) (sizeSum0 : Int) (multilabel0 : Bool)
    (hN : 0 < args.nbase) (hp : args.bagging = 0) :
    (∀ str : List Nat, ¬ hashInput str < args.bagging) ∧
    ∃ (b : Bagging Model Vec) (env1 : Env),
      (Bagging.new args sizeSum0 multilabel0).setup lossLayerFactory baseSetup args dict env
        = some (b, env1) ∧
      (b.baseLayers.length : Int) = args.nbase ∧
      ∀ (input labels : List Int) (lr : real) (model : Model),
        (b.lossRun input labels lr model).calls.map (fun c => c.1)
          = List.range args.nbase.toNat ∧
        (b.loss input labels lr model).1 =
          fdiv (floatSum (memberLosses labels lr b.baseLayers model)) (toReal args.nbase) := by
  refine ⟨fun str => by rw [hp]; exact not_lt.mpr (hashInput_nonneg str), ?_⟩
  obtain ⟨b, env1, hset, hargs, hlen, -, -⟩ :=
    setup_ok lossLayerFactory baseSetup args dict env sizeSum0 multilabel0 hN
  have hcast : (b.baseLayers.length : Int) = args.nbase := by rw [hlen]; omega
  refine ⟨b, env1, hset, hcast, ?_⟩
  intro input labels lr model
  have hb0 : b.args_.bagging = 0 := by rw [hargs]; exact hp
  have hall : includedFrom b.args_.bagging input 0 b.baseLayers = b.baseLayers.enumFrom 0 :=
    includedFrom_all _ _ (fun i => by rw [hb0]; exact included_of_zero _ i) 0 _
  refine ⟨?_, ?_⟩
  · rw [lossRun_eq, hall]
    simp only [List.map_map]
    have : ((fun c : Nat × List Int × real => c.1) ∘
        fun ib : Nat × LossLayer Model Vec => (ib.1, labels, lr)) = Prod.fst := rfl
    rw [this, map_fst_enumFrom, hlen, List.range_eq_range']
  · have hbag : b.args_.bagging = args.bagging := by rw [hargs]
    rw [hbag] at hall
    simp [Bagging.loss, lossRun_eq, hall, map_snd_enumFrom, hargs]

/-- C3, at `N = 2`, `p = 0`. -/
theorem loss_zero_dropout_includes_all_witness :
    (∀ str : List Nat, ¬ hashInput str < (Args.mk 2 0 false 0).bagging) ∧
    ∃ (b : Bagging Nat Unit) (env1 : Nat),
      (Bagging.new (Args.mk 2 0 false 0) 7 false).setup sampleFactory sampleSetup
        (Args.mk 2 0 false 0) () 0 = some (b, env1) ∧
      (b.baseLayers.length : Int) = (Args.mk 2 0 false 0).nbase ∧
      ∀ (input labels : List Int) (lr : real) (model : Nat),
        (b.lossRun input labels lr model).calls.map (fun c => c.1)
          = List.range (Args.mk 2 0 false 0).nbase.toNat ∧
        (b.loss input labels lr model).1 =
          fdiv (floatSum (memberLosses labels lr b.baseLayers model))
            (toReal (Args.mk 2 0 false 0).nbase) :=
  loss_zero_dropout_includes_all sampleFactory sampleSetup (Args.mk 2 0 false 0) () 0 7 false
    (by decide) rfl

/-! ## Properties of `Bagging::setup` and of the dropout decision -/

/-- C9: after `Bagging::setup` with configured member count `N > 0` the
coordinator holds exactly `N` members, the shift of member `i` is the sum of
`getSize()` of the members `0 .. i-1` (so member `0` has shift `0`), and
`Bagging::getSize()` is the sum of `getSize()` over all members.  The sums are
those an `int32_t` holds (`wrapInt32` of the exact sum); when no sum of the
sizes of the first `i` members leaves the `int32_t` range, they are the exact
sums. -/
theorem setup_shifts_and_size {Model Vec Dict Env : Type}
    (lossLayerFactory : Args → Nat → Env → LossLayer Model Vec × Env)
    (baseSetup : LossLayer Model Vec → Args → Dict → Env → LossLayer Model Vec × Env)
    (args : Args) (dict : Dict) (env : Env) (sizeSum0 : Int) (multilabel0 : Bool)
    (hN : 0 < args.nbase) :
    ∃ (b : Bagging Model Vec) (env1 : Env),
      (Bagging.new args sizeSum0 multilabel0).setup lossLayerFactory baseSetup args dict env
        = some (b, env1) ∧
      (b.baseLayers.length : Int) = args.nbase ∧
      (∀ (i : Nat) (hi : i < b.baseLayers.length),
        (b.baseLayers.get ⟨i, hi⟩).shift
          = wrapInt32 ((b.baseLayers.take i).map LossLayer.getSize).sum) ∧
      (∀ hpos : 0 < b.baseLayers.length, (b.baseLayers.get ⟨0, hpos⟩).shift = 0) ∧
      b.getSize = wrapInt32 (b.baseLayers.map LossLayer.getSize).sum ∧
      ((∀ i : Nat, i ≤ b.baseLayers.length →
          -2147483648 ≤ ((b.baseLayers.take i).map LossLayer.getSize).sum ∧
          ((b.baseLayers.take i).map LossLayer.getSize).sum < 2147483648) →
        (∀ (i : Nat) (hi : i < b.baseLayers.length),
          (b.baseLayers.get ⟨i, hi⟩).shift
            = ((b.baseLayers.take i).map LossLayer.getSize).sum) ∧
        b.getSize = (b.baseLayers.map LossLayer.getSize).sum) := by
  obtain ⟨b, env1, hset, -, hlen, hsum, hinv⟩ :=
    setup_ok lossLayerFactory baseSetup args dict env sizeSum0 multilabel0 hN
  refine ⟨b, env1, hset, ?_, hinv, ?_, hsum, ?_⟩
  · rw [hlen]; omega
  · intro hpos
    have h0 := hinv 0 hpos
    simpa [wrapInt32] using h0
  · intro hrange
    refine ⟨?_, ?_⟩
    · intro i hi
      rw [hinv i hi]
      exact wrapInt32_of_range _ (hrange i (le_of_lt hi)).1 (hrange i (le_of_lt hi)).2
    · have hall := hrange b.baseLayers.length (le_refl _)
      rw [List.take_length] at hall
      rw [Bagging.getSize, hsum]
      exact wrapInt32_of_range _ hall.1 hall.2

/-- C9, at three sample members of sizes `1`, `2`, `3`. -/
theorem setup_shifts_and_size_witness :
    ∃ (b : Bagging Nat Unit) (env1 : Nat),
      (Bagging.new (Args.mk 3 (1/2) false 0) 7 false).setup sampleFactory sampleSetup
        (Args.mk 3 (1/2) false 0) () 0 = some (b, env1) ∧
      (b.baseLayers.length : Int) = (Args.mk 3 (1/2) false 0).nbase ∧
      (∀ (i : Nat) (hi : i < b.baseLayers.length),
        (b.baseLayers.get ⟨i, hi⟩).shift
          = wrapInt32 ((b.baseLayers.take i).map LossLayer.getSize).sum) ∧
      (∀ hpos : 0 < b.baseLayers.length, (b.baseLayers.get ⟨0, hpos⟩).shift = 0) ∧
      b.getSize = wrapInt32 (b.baseLayers.map LossLayer.getSize).sum ∧
      ((∀ i : Nat, i ≤ b.baseLayers.length →
          -2147483648 ≤ ((b.baseLayers.take i).map LossLayer.getSize).sum ∧
          ((b.baseLayers.take i).map LossLayer.getSize).sum < 2147483648) →
        (∀ (i : Nat) (hi : i < b.baseLayers.length),
          (b.baseLayers.get ⟨i, hi⟩).shift
            = ((b.baseLayers.take i).map LossLayer.getSize).sum) ∧
        b.getSize = (b.baseLayers.map LossLayer.getSize).sum) :=
  setup_shifts_and_size sampleFactory sampleSetup (Args.mk 3 (1/2) false 0) () 0 7 false
    (by decide)

/-- C10: for every dropout parameter `p`, in particular for `p` in `[0,1)`, the
members whose loss `Bagging::loss` invokes are those of index `i` below the
member count with `included p input i`, a condition on the index, the input
sequence and `p` alone; two calls with the same input and `p` on coordinators
with the same number of members invoke the same members, whatever the labels,
the learning rate, the model state and the members themselves are. -/
theorem loss_included_set_deterministic {Model Vec : Type} (b b2 : Bagging Model Vec)
    (input : List Int)
    (hbag : b2.args_.bagging = b.args_.bagging)
    (hlen : b2.baseLayers.length = b.baseLayers.length)
    (labels labels2 : List Int) (lr lr2 : real) (model model2 : Model) :
    (b.lossRun input labels lr model).calls.map (fun c => c.1)
      = (List.range b.baseLayers.length).filter
          (fun i => decide (included b.args_.bagging input i)) ∧
    (b.lossRun input labels lr model).calls.map (fun c => c.1)
      = (b2.lossRun input labels2 lr2 model2).calls.map (fun c => c.1) := by
  have key : ∀ (c : Bagging Model Vec) (ls : List Int) (r : real) (m : Model),
      (c.lossRun input ls r m).calls.map (fun c => c.1)
        = (List.range c.baseLayers.length).filter
            (fun i => decide (included c.args_.bagging input i)) := by
    intro c ls r m
    rw [lossRun_eq]
    simp only [List.map_map]
    have : ((fun c : Nat × List Int × real => c.1) ∘
        fun ib : Nat × LossLayer Model Vec => (ib.1, ls, r)) = Prod.fst := rfl
    rw [this, includedFrom_indices, List.range_eq_range']
  refine ⟨key b labels lr model, ?_⟩
  rw [key b labels lr model, key b2 labels2 lr2 model2, hbag, hlen]

/-- C10, at `p = 1/2` on two coordinators with two sample members each. -/
theorem loss_included_set_deterministic_witness :
    ((Bagging.mk (Args.mk 2 (1/2) true 0) 3 true [sampleBase 1 0, sampleBase 2 1]).lossRun
        [5, 7] [2] (1/10) 0).calls.map (fun c => c.1)
      = (List.range
          (Bagging.mk (Args.mk 2 (1/2) true 0) 3 true
            [sampleBase 1 0, sampleBase 2 1]).baseLayers.length).filter
          (fun i => decide (included
            (Bagging.mk (Args.mk 2 (1/2) true 0) 3 true
              [sampleBase 1 0, sampleBase 2 1]).args_.bagging [5, 7] i)) ∧
    ((Bagging.mk (Args.mk 2 (1/2) true 0) 3 true [sampleBase 1 0, sampleBase 2 1]).lossRun
        [5, 7] [2] (1/10) 0).calls.map (fun c => c.1)
      = ((Bagging.mk (Args.mk 2 (1/2) true 0) 9 true [sampleBase 4 3, sampleBase 5 4]).lossRun
        [5, 7] [1, 3] (1/5) 8).calls.map (fun c => c.1) :=
  loss_included_set_deterministic
    (Bagging.mk (Args.mk 2 (1/2) true 0) 3 true [sampleBase 1 0, sampleBase 2 1])
    (Bagging.mk (Args.mk 2 (1/2) true 0) 9 true [sampleBase 4 3, sampleBase 5 4])
    [5, 7] rfl rfl [2] [1, 3] (1/10) (1/5) 0 8

/-! ## The loops of `Bagging::findKBest` -/

theorem forBase_aux {Model Vec σ : Type} (body : σ → LossLayer Model Vec → σ) :
    ∀ (baseLayers pre : List (LossLayer Model Vec)) (init : σ),
      (List.range' pre.length baseLayers.length).foldlM
          (fun st i => ((pre ++ baseLayers)[i]?).map (body st)) init
        = some (baseLayers.foldl body init) := by
  intro baseLayers
  induction baseLayers with
  | nil => intro pre init; rfl
  | cons a l ih =>
    intro pre init
    have h := ih (pre ++ [a]) (body init a)
    simp only [List.length_append, List.length_singleton, List.append_assoc,
      List.singleton_append] at h
    simp only [List.length_cons, List.range'_succ, List.foldlM_cons, List.foldl_cons]
    have hget : (pre ++ a :: l)[pre.length]? = some a := by
      rw [List.getElem?_append_right (le_refl _)]; simp
    rw [hget]
    simpa using h

theorem forBase_eq {Model Vec σ : Type} (baseLayers : List (LossLayer Model Vec))
    (body : σ → LossLayer Model Vec → σ) (init : σ) :
    forBase baseLayers baseLayers.length body init = some (baseLayers.foldl body init) := by
  have h := forBase_aux body baseLayers [] init
  simpa [forBase, List.range_eq_range'] using h

theorem mem_setInsert (value L : Int) (s : List Int) :
    L ∈ setInsert value s ↔ L = value ∨ L ∈ s := by
  induction s with
  | nil => simp [setInsert]
  | cons x xs ih =>
    unfold setInsert
    split_ifs with h1 h2
    · simp
    · simp only [List.mem_cons, ih]; tauto
    · have hx : x = value := by omega
      subst hx
      simp

theorem sorted_setInsert (value : Int) (s : List Int) (hs : s.Sorted (· < ·)) :
    (setInsert value s).Sorted (· < ·) := by
  induction s with
  | nil => simp [setInsert]
  | cons x xs ih =>
    have hxs := List.sorted_cons.mp hs
    unfold setInsert
    split_ifs with h1 h2
    · refine List.sorted_cons.mpr ⟨?_, hs⟩
      intro b hb
      rcases List.mem_cons.mp hb with rfl | hb
      · exact h1
      · exact lt_trans h1 (hxs.1 b hb)
    · refine List.sorted_cons.mpr ⟨?_, ih hxs.2⟩
      intro b hb
      rcases (mem_setInsert value b xs).mp hb with rfl | hb
      · exact h2
      · exact hxs.1 b hb
    · exact hs

theorem insert_labels_spec (heap : List (real × Int)) :
    ∀ (s : List Int), s.Sorted (· < ·) →
      (heap.foldl (fun label_set value => setInsert value.2 label_set) s).Sorted (· < ·) ∧
      ∀ L, L ∈ heap.foldl (fun label_set value => setInsert value.2 label_set) s ↔
        (L ∈ s ∨ ∃ e ∈ heap, e.2 = L) := by
  induction heap with
  | nil => intro s hs; simp [hs]
  | cons e es ih =>
    intro s hs
    have h := ih (setInsert e.2 s) (sorted_setInsert e.2 s hs)
    refine ⟨by simpa using h.1, ?_⟩
    intro L
    simp only [List.foldl_cons, h.2 L, mem_setInsert, List.mem_cons]
    constructor
    · rintro ((rfl | hL) | ⟨x, hx, rfl⟩)
      · exact Or.inr ⟨e, Or.inl rfl, rfl⟩
      · exact Or.inl hL
      · exact Or.inr ⟨x, Or.inr hx, rfl⟩
    · rintro (hL | ⟨x, rfl | hx, rfl⟩)
      · exact Or.inl (Or.inr hL)
      · exact Or.inl (Or.inl rfl)
      · exact Or.inr ⟨x, hx, rfl⟩

theorem gather_fold_spec {Model Vec : Type} (top_k : Int) (hidden : Vec) (model : Model) :
    ∀ (baseLayers : List (LossLayer Model Vec)) (st : List (real × Int) × List Int),
      st.2.Sorted (· < ·) →
      (baseLayers.foldl (gatherStep top_k hidden model) st).2.Sorted (· < ·) ∧
      ∀ L, L ∈ (baseLayers.foldl (gatherStep top_k hidden model) st).2 ↔
        (L ∈ st.2 ∨ ∃ base ∈ baseLayers, ∃ e ∈ base.findKBest top_k [] hidden model,
          e.2 = L) := by
  intro baseLayers
  induction baseLayers with
  | nil => intro st hs; simp [hs]
  | cons base rest ih =>
    intro st hs
    have hstep := insert_labels_spec (base.findKBest top_k [] hidden model) st.2 hs
    have h := ih (gatherStep top_k hidden model st base) (by simpa [gatherStep] using hstep.1)
    refine ⟨by simpa using h.1, ?_⟩
    intro L
    simp only [List.foldl_cons, h.2 L, List.mem_cons]
    have hmem : L ∈ (gatherStep top_k hidden model st base).2 ↔
        (L ∈ st.2 ∨ ∃ e ∈ base.findKBest top_k [] hidden model, e.2 = L) := by
      simpa [gatherStep] using hstep.2 L
    rw [hmem]
    constructor
    · rintro ((hL | ⟨e, he, rfl⟩) | ⟨b, hb, e, he, rfl⟩)
      · exact Or.inl hL
      · exact Or.inr ⟨base, Or.inl rfl, e, he, rfl⟩
      · exact Or.inr ⟨b, Or.inr hb, e, he, rfl⟩
    · rintro (hL | ⟨b, rfl | hb, e, he, rfl⟩)
      · exact Or.inl (Or.inl hL)
      · exact Or.inl (Or.inr ⟨e, he, rfl⟩)
      · exact Or.inr ⟨b, hb, e, he, rfl⟩

theorem gather_fold_heap_irrelevant {Model Vec : Type} (top_k : Int) (hidden : Vec)
    (model : Model) :
    ∀ (baseLayers : List (LossLayer Model Vec)) (heap heap2 : List (real × Int))
      (s : List Int),
      (baseLayers.foldl (gatherStep top_k hidden model) (heap, s)).2
        = (baseLayers.foldl (gatherStep top_k hidden model) (heap2, s)).2 := by
  intro baseLayers
  induction baseLayers with
  | nil => intro heap heap2 s; rfl
  | cons base rest ih =>
    intro heap heap2 s
    simp only [List.foldl_cons]
    rfl

theorem mapAssign_fresh (key : Int) (x : real) :
    ∀ (m : List (Int × real)), key ∉ m.map Prod.fst → mapAssign key x m = m ++ [(key, x)] := by
  intro m
  induction m with
  | nil => intro _; rfl
  | cons e es ih =>
    intro hk
    simp only [List.map_cons, List.mem_cons, not_or] at hk
    have hne : ¬ e.1 = key := fun h => hk.1 h.symm
    simp [mapAssign, hne, ih hk.2]

theorem assign_fold_eq :
    ∀ (label_set : List Int) (acc : List (Int × real)), label_set.Nodup →
      (∀ v ∈ label_set, v ∉ acc.map Prod.fst) →
      label_set.foldl (fun freq value => mapAssign value 0 freq) acc
        = acc ++ label_set.map (fun L => (L, (0 : real))) := by
  intro label_set
  induction label_set with
  | nil => intro acc _ _; simp
  | cons v vs ih =>
    intro acc hnd hfresh
    have hnd2 := List.nodup_cons.mp hnd
    have hv : v ∉ acc.map Prod.fst := hfresh v (List.mem_cons_self _ _)
    simp only [List.foldl_cons, mapAssign_fresh v 0 acc hv]
    rw [ih (acc ++ [(v, 0)]) hnd2.2]
    · simp
    · intro w hw
      simp only [List.map_append, List.map_cons, List.map_nil, List.mem_append,
        List.mem_singleton, not_or]
      refine ⟨hfresh w (List.mem_cons_of_mem _ hw), ?_⟩
      rintro rfl
      exact hnd2.1 hw

theorem mapAdd_present (key : Int) (x : real) (f : Int → real) :
    ∀ (l : List Int), l.Nodup → key ∈ l →
      mapAdd key x (l.map (fun L => (L, f L)))
        = l.map (fun L => (L, if L = key then fadd (f L) x else f L)) := by
  intro l
  induction l with
  | nil => intro _ h; simp at h
  | cons a as ih =>
    intro hnd hmem
    have hnd2 := List.nodup_cons.mp hnd
    by_cases ha : a = key
    · subst ha
      simp only [List.map_cons, mapAdd, if_true]
      congr 1
      apply List.map_congr_left
      intro L hL
      have : L ≠ a := fun h => hnd2.1 (h ▸ hL)
      simp [this]
    · have hk : key ∈ as := by
        rcases List.mem_cons.mp hmem with h | h
        · exact absurd h.symm ha
        · exact h
      simp [mapAdd, ha, ih hnd2.2 hk]

theorem fuseStep_aux {Model Vec : Type} (hidden : Vec) (model : Model)
    (base : LossLayer Model Vec) (l : List Int) (hl : l.Nodup) :
    ∀ (rest : List Int), rest.Nodup → (∀ v ∈ rest, v ∈ l) → ∀ (f : Int → real),
      rest.foldl (fun freq value => mapAdd value (base.getLabelP value hidden model) freq)
          (l.map (fun L => (L, f L)))
        = l.map (fun L =>
            (L, if L ∈ rest then fadd (f L) (base.getLabelP L hidden model) else f L)) := by
  intro rest
  induction rest with
  | nil => intro _ _ f; simp
  | cons v vs ih =>
    intro hnd hsub f
    have hnd2 := List.nodup_cons.mp hnd
    simp only [List.foldl_cons]
    rw [mapAdd_present v _ f l hl (hsub v (List.mem_cons_self _ _))]
    rw [ih hnd2.2 (fun w hw => hsub w (List.mem_cons_of_mem _ hw))
      (fun L => if L = v then fadd (f L) (base.getLabelP v hidden model) else f L)]
    apply List.map_congr_left
    intro L _
    by_cases hLv : L = v
    · subst hLv
      simp [hnd2.1]
    · simp [hLv]

theorem fuseStep_eq {Model Vec : Type} (hidden : Vec) (model : Model)
    (base : LossLayer Model Vec) (l : List Int) (hl : l.Nodup) (f : Int → real) :
    fuseStep l hidden model (l.map (fun L => (L, f L))) base
      = l.map (fun L => (L, fadd (f L) (base.getLabelP L hidden model))) := by
  unfold fuseStep
  rw [fuseStep_aux hidden model base l hl l hl (fun _ h => h) f]
  apply List.map_congr_left
  intro L hL
  simp [hL]

theorem fuse_fold_eq {Model Vec : Type} (hidden : Vec) (model : Model) (l : List Int)
    (hl : l.Nodup) :
    ∀ (baseLayers : List (LossLayer Model Vec)) (f : Int → real),
      baseLayers.foldl (fuseStep l hidden model) (l.map (fun L => (L, f L)))
        = l.map (fun L =>
            (L, (baseLayers.map (fun base => base.getLabelP L hidden model)).foldl fadd
              (f L))) := by
  intro baseLayers
  induction baseLayers with
  | nil => intro f; simp
  | cons base rest ih =>
    intro f
    simp only [List.foldl_cons, fuseStep_eq hidden model base l hl f]
    rw [ih (fun L => fadd (f L) (base.getLabelP L hidden model))]
    simp

theorem push_fold_eq (nbase : Int) :
    ∀ (entries : List (Int × real)) (acc : List (real × Int)),
      entries.foldl (fun h elem => h ++ [(fdiv elem.2 (toReal nbase), elem.1)]) acc
        = acc ++ entries.map (fun elem => (fdiv elem.2 (toReal nbase), elem.1)) := by
  intro entries
  induction entries with
  | nil => intro acc; simp
  | cons e es ih => intro acc; simp [ih]

/-! ## Sorting and resizing -/

theorem pairLe_iff (a b : real × Int) :
    pairLe a b ↔ a.1 < b.1 ∨ (a.1 = b.1 ∧ a.2 ≤ b.2) := by
  unfold pairLe pairLt
  rcases lt_trichotomy a.1 b.1 with h | h | h
  · simp [h, not_lt_of_gt h, ne_of_lt h]
  · simp [h]
  · simp [h, not_lt_of_gt h, ne_of_gt h]

theorem pairLe_total (a b : real × Int) : pairLe a b ∨ pairLe b a := by
  rw [pairLe_iff, pairLe_iff]
  rcases lt_trichotomy a.1 b.1 with h | h | h
  · exact Or.inl (Or.inl h)
  · rcases le_total a.2 b.2 with h2 | h2
    · exact Or.inl (Or.inr ⟨h, h2⟩)
    · exact Or.inr (Or.inr ⟨h.symm, h2⟩)
  · exact Or.inr (Or.inl h)

theorem pairLe_trans (a b c : real × Int) (hab : pairLe a b) (hbc : pairLe b c) :
    pairLe a c := by
  rw [pairLe_iff] at hab hbc ⊢
  rcases hab with h1 | ⟨h1, h2⟩
  · rcases hbc with h3 | ⟨h3, _⟩
    · exact Or.inl (lt_trans h1 h3)
    · exact Or.inl (h3 ▸ h1)
  · rcases hbc with h3 | ⟨h3, h4⟩
    · exact Or.inl (h1 ▸ h3)
    · exact Or.inr ⟨h1.trans h3, le_trans h2 h4⟩

theorem pairLe_antisymm (a b : real × Int) (hab : pairLe a b) (hba : pairLe b a) : a = b := by
  rw [pairLe_iff] at hab hba
  rcases hab with h1 | ⟨h1, h2⟩
  · rcases hba with h3 | ⟨h3, _⟩
    · exact absurd h1 (not_lt_of_gt h3)
    · exact absurd h1 (by rw [h3]; exact lt_irrefl _)
  · rcases hba with h3 | ⟨_, h4⟩
    · exact absurd h3 (by rw [h1]; exact lt_irrefl _)
    · exact Prod.ext h1 (le_antisymm h2 h4)

theorem sortReversed_perm (l : List (real × Int)) : (sortReversed l).Perm l :=
  ((List.reverse_perm _).trans (List.perm_insertionSort pairLe _)).trans (List.reverse_perm l)

theorem sortReversed_sorted (l : List (real × Int)) :
    (sortReversed l).Pairwise (fun a b => pairLe b a) := by
  haveI : IsTotal (real × Int) pairLe := ⟨pairLe_total⟩
  haveI : IsTrans (real × Int) pairLe := ⟨pairLe_trans⟩
  unfold sortReversed
  rw [List.pairwise_reverse]
  exact List.sorted_insertionSort pairLe l.reverse

theorem sortReversed_congr (l l2 : List (real × Int)) (h : l.Perm l2) :
    sortReversed l = sortReversed l2 := by
  haveI : IsTotal (real × Int) pairLe := ⟨pairLe_total⟩
  haveI : IsTrans (real × Int) pairLe := ⟨pairLe_trans⟩
  haveI : IsAntisymm (real × Int) pairLe := ⟨pairLe_antisymm⟩
  unfold sortReversed
  congr 1
  apply List.eq_of_perm_of_sorted (r := pairLe)
  · exact ((List.perm_insertionSort pairLe _).trans
      ((List.reverse_perm l).trans (h.trans (List.reverse_perm l2).symm))).trans
      (List.perm_insertionSort pairLe _).symm
  · exact List.sorted_insertionSort pairLe _
  · exact List.sorted_insertionSort pairLe _

theorem sortReversed_length (l : List (real × Int)) : (sortReversed l).length = l.length :=
  (sortReversed_perm l).length_eq

/-! ## The result of `Bagging::findKBest` in closed form -/

theorem candidateSet_sorted {Model Vec : Type} (baseLayers : List (LossLayer Model Vec))
    (top_k : Int) (hidden : Vec) (model : Model) :
    (candidateSet baseLayers top_k hidden model).Sorted (· < ·) :=
  (gather_fold_spec top_k hidden model baseLayers ([], []) List.sorted_nil).1

theorem candidateSet_nodup {Model Vec : Type} (baseLayers : List (LossLayer Model Vec))
    (top_k : Int) (hidden : Vec) (model : Model) :
    (candidateSet baseLayers top_k hidden model).Nodup :=
  (candidateSet_sorted baseLayers top_k hidden model).nodup

theorem mem_candidateSet {Model Vec : Type} (baseLayers : List (LossLayer Model Vec))
    (top_k : Int) (hidden : Vec) (model : Model) (L : Int) :
    L ∈ candidateSet baseLayers top_k hidden model ↔
      ∃ base ∈ baseLayers, ∃ e ∈ base.findKBest top_k [] hidden model, e.2 = L := by
  have h := (gather_fold_spec top_k hidden model baseLayers ([], []) List.sorted_nil).2 L
  simpa [candidateSet] using h

theorem nbase_toNat_eq {Model Vec : Type} (b : Bagging Model Vec)
    (hwf : (b.baseLayers.length : Int) = b.args_.nbase) :
    b.args_.nbase.toNat = b.baseLayers.length := by
  omega

theorem gather_eq {Model Vec : Type} (b : Bagging Model Vec)
    (hwf : (b.baseLayers.length : Int) = b.args_.nbase) (top_k : Int)
    (heap : List (real × Int)) (hidden : Vec) (model : Model) :
    b.gather top_k heap hidden model
      = some (b.baseLayers.foldl (gatherStep top_k hidden model) (heap, [])) := by
  unfold Bagging.gather
  rw [nbase_toNat_eq b hwf, forBase_eq]

theorem gather_label_set {Model Vec : Type} (b : Bagging Model Vec) (top_k : Int)
    (heap : List (real × Int)) (hidden : Vec) (model : Model) :
    (b.baseLayers.foldl (gatherStep top_k hidden model) (heap, [])).2
      = candidateSet b.baseLayers top_k hidden model :=
  gather_fold_heap_irrelevant top_k hidden model b.baseLayers heap [] []

theorem findKBest_eq {Model Vec : Type} (b : Bagging Model Vec)
    (hwf : (b.baseLayers.length : Int) = b.args_.nbase) (order : HashOrder) (top_k : Int)
    (hk : 0 ≤ top_k) (heap : List (real × Int)) (hidden : Vec) (model : Model) :
    b.findKBest order top_k heap hidden model
      = some ((fusedList b.baseLayers b.args_.nbase top_k hidden model).take top_k.toNat ++
          List.replicate
            (top_k.toNat - (fusedList b.baseLayers b.args_.nbase top_k hidden model).length)
            ((0 : real), (0 : Int))) := by
  unfold Bagging.findKBest
  rw [gather_eq b hwf]
  simp only [gather_label_set]
  rw [nbase_toNat_eq b hwf, forBase_eq]
  simp only
  have hnd := candidateSet_nodup b.baseLayers top_k hidden model
  rw [assign_fold_eq _ [] hnd (by simp)]
  simp only [List.nil_append]
  rw [fuse_fold_eq hidden model _ hnd b.baseLayers (fun _ => 0), push_fold_eq]
  simp only [List.nil_append]
  have hperm : ((order.order ((candidateSet b.baseLayers top_k hidden model).map
        (fun L => (L, (b.baseLayers.map (fun base => base.getLabelP L hidden model)).foldl
          fadd (0 : real))))).map
        (fun elem => (fdiv elem.2 (toReal b.args_.nbase), elem.1))).Perm
      ((candidateSet b.baseLayers top_k hidden model).map
        (fun L => (avgProb b.baseLayers b.args_.nbase hidden model L, L))) := by
    refine ((order.perm _).map _).trans ?_
    simp [List.map_map, avgProb, floatSum, Function.comp_def]
  rw [sortReversed_congr _ _ hperm]
  simp [resize, not_lt.mpr hk, fusedList]

theorem fusedList_length {Model Vec : Type} (baseLayers : List (LossLayer Model Vec))
    (nbase top_k : Int) (hidden : Vec) (model : Model) :
    (fusedList baseLayers nbase top_k hidden model).length
      = (candidateSet baseLayers top_k hidden model).length := by
  simp [fusedList, sortReversed_length]

theorem mem_fusedList {Model Vec : Type} (baseLayers : List (LossLayer Model Vec))
    (nbase top_k : Int) (hidden : Vec) (model : Model) (e : real × Int) :
    e ∈ fusedList baseLayers nbase top_k hidden model ↔
      e.2 ∈ candidateSet baseLayers top_k hidden model ∧
      e.1 = avgProb baseLayers nbase hidden model e.2 := by
  unfold fusedList
  rw [(sortReversed_perm _).mem_iff, List.mem_map]
  constructor
  · rintro ⟨L, hL, rfl⟩
    exact ⟨hL, rfl⟩
  · rintro ⟨hL, he⟩
    exact ⟨e.2, hL, Prod.ext he.symm rfl⟩

theorem resized_length (l : List (real × Int)) (n : Nat) :
    (l.take n ++ List.replicate (n - l.length) ((0 : real), (0 : Int))).length = n := by
  simp only [List.length_append, List.length_take, List.length_replicate]
  omega

theorem resized_get_lt (l : List (real × Int)) (n j : Nat)
    (hj : j < (l.take n ++ List.replicate (n - l.length) ((0 : real), (0 : Int))).length)
    (hl : j < l.length) :
    (l.take n ++ List.replicate (n - l.length) ((0 : real), (0 : Int))).get ⟨j, hj⟩
      = l.get ⟨j, hl⟩ := by
  have hn : j < n := by rw [resized_length] at hj; exact hj
  have ht : j < (l.take n).length := by simp [List.length_take]; omega
  simp only [List.get_eq_getElem]
  rw [List.getElem_append_left ht]
  simp

theorem resized_get_ge (l : List (real × Int)) (n j : Nat)
    (hj : j < (l.take n ++ List.replicate (n - l.length) ((0 : real), (0 : Int))).length)
    (hl : l.length ≤ j) :
    (l.take n ++ List.replicate (n - l.length) ((0 : real), (0 : Int))).get ⟨j, hj⟩
      = ((0 : real), (0 : Int)) := by
  have ht : (l.take n).length ≤ j := by simp [List.length_take]; omega
  simp only [List.get_eq_getElem]
  rw [List.getElem_append_right ht]
  simp

theorem roundReal_nonneg (x : ℚ) (hx : 0 ≤ x) : 0 ≤ roundReal x := by
  unfold roundReal
  split_ifs with h0 hneg
  · exact le_refl _
  · exact absurd hx (not_le.mpr hneg)
  · exact le_min (mul_nonneg (Nat.cast_nonneg _) (zpow_nonneg (by norm_num) _))
      (pow_nonneg (by norm_num) _)

theorem fadd_nonneg (a b : real) (ha : 0 ≤ a) (hb : 0 ≤ b) : 0 ≤ fadd a b := by
  unfold fadd
  split_ifs
  · exact ha
  · exact hb
  · exact roundReal_nonneg _ (add_nonneg ha hb)

theorem fdiv_nonneg (a n : real) (ha : 0 ≤ a) (hn : 0 ≤ n) : 0 ≤ fdiv a n := by
  unfold fdiv
  split_ifs
  · exact ha
  · exact roundReal_nonneg _ (div_nonneg ha hn)

theorem toReal_nonneg (n : Int) (hn : 0 ≤ n) : 0 ≤ toReal n :=
  roundReal_nonneg _ (by exact_mod_cast hn)

theorem foldl_fadd_nonneg :
    ∀ (values : List real) (acc : real), 0 ≤ acc → (∀ x ∈ values, 0 ≤ x) →
      0 ≤ values.foldl fadd acc := by
  intro values
  induction values with
  | nil => intro acc hacc _; exact hacc
  | cons x xs ih =>
    intro acc hacc hall
    exact ih (fadd acc x)
      (fadd_nonneg acc x hacc (hall x (List.mem_cons_self _ _)))
      (fun y hy => hall y (List.mem_cons_of_mem _ hy))

theorem avgProb_nonneg {Model Vec : Type} (baseLayers : List (LossLayer Model Vec))
    (nbase : Int) (hn : 0 ≤ nbase) (hidden : Vec) (model : Model) (L : Int)
    (hprob : ∀ base ∈ baseLayers, 0 ≤ base.getLabelP L hidden model) :
    0 ≤ avgProb baseLayers nbase hidden model L := by
  unfold avgProb floatSum
  apply fdiv_nonneg _ _ _ (toReal_nonneg nbase hn)
  apply foldl_fadd_nonneg _ _ (le_refl _)
  intro x hx
  obtain ⟨base, hb, rfl⟩ := List.mem_map.mp hx
  exact hprob base hb

theorem fusedList_labels_nodup {Model Vec : Type} (baseLayers : List (LossLayer Model Vec))
    (nbase top_k : Int) (hidden : Vec) (model : Model) :
    ((fusedList baseLayers nbase top_k hidden model).map Prod.snd).Nodup := by
  have hperm : ((fusedList baseLayers nbase top_k hidden model).map Prod.snd).Perm
      (candidateSet baseLayers top_k hidden model) := by
    unfold fusedList
    refine ((sortReversed_perm _).map Prod.snd).trans ?_
    simp [List.map_map, Function.comp_def]
  exact hperm.nodup_iff.mpr (candidateSet_nodup baseLayers top_k hidden model)

/-! ## Properties of `Bagging::findKBest` -/

/-- C4: for every `k ≥ 0` and whatever the members answer, the list that
`Bagging::findKBest` leaves in the output container has exactly `k` entries. -/
theorem findKBest_returns_k_entries {Model Vec : Type} (b : Bagging Model Vec)
    (hwf : (b.baseLayers.length : Int) = b.args_.nbase) (order : HashOrder) (top_k : Int)
    (hk : 0 ≤ top_k) (heap : List (real × Int)) (hidden : Vec) (model : Model) :
    ∃ out, b.findKBest order top_k heap hidden model = some out ∧
      (out.length : Int) = top_k := by
  refine ⟨_, findKBest_eq b hwf order top_k hk heap hidden model, ?_⟩
  rw [resized_length]
  omega

/-- C4, in scenario D with `k = 3`: one candidate label, three entries. -/
theorem findKBest_returns_k_entries_witness :
    ∃ out, scenarioD.findKBest storedOrder 3 [] () () = some out ∧ (out.length : Int) = 3 :=
  findKBest_returns_k_entries scenarioD (by decide) storedOrder 3 (by decide) [] () ()

/-- C5, as stated, fails: with one member that shortlists label `0` with
probability `1/2` and `k = 2`, the second returned entry carries the candidate
label `0` but has probability `0`, not the averaged probability `1/2`. -/
theorem findKBest_padding_entry_not_average :
    ∃ gathered out,
      scenarioZero.gather 2 [] () () = some gathered ∧
      scenarioZero.findKBest storedOrder 2 [] () () = some out ∧
      ∃ e ∈ out, e.2 ∈ gathered.2 ∧
        e.1 ≠ avgProb scenarioZero.baseLayers scenarioZero.args_.nbase () () e.2 :=
  ⟨([(1/2, 0)], [0]), [(1/2, 0), (0, 0)], by decide!, by decide!, (0, 0), by decide!,
    by decide!, by decide!⟩

/-- C5, amended: the candidate set is the union of the label ids of every
member's own shortlist; every returned entry at a position below the number of
candidate labels carries a candidate label `L` and has probability
(sum over all members of `getLabelP(L)`) / `N`, computed in `real` arithmetic
(`avgProb`); every returned entry at a later position is the pair `(0, 0)`
that `resize` appends. -/
theorem findKBest_candidates_and_averages {Model Vec : Type} (b : Bagging Model Vec)
    (hwf : (b.baseLayers.length : Int) = b.args_.nbase) (order : HashOrder) (top_k : Int)
    (hk : 0 ≤ top_k) (heap : List (real × Int)) (hidden : Vec) (model : Model) :
    ∃ gathered out,
      b.gather top_k heap hidden model = some gathered ∧
      b.findKBest order top_k heap hidden model = some out ∧
      (∀ L, L ∈ gathered.2 ↔
        ∃ base ∈ b.baseLayers, ∃ e ∈ base.findKBest top_k [] hidden model, e.2 = L) ∧
      (∀ (j : Nat) (hj : j < out.length), j < gathered.2.length →
        (out.get ⟨j, hj⟩).2 ∈ gathered.2 ∧
        (out.get ⟨j, hj⟩).1
          = avgProb b.baseLayers b.args_.nbase hidden model (out.get ⟨j, hj⟩).2) ∧
      ∀ (j : Nat) (hj : j < out.length), gathered.2.length ≤ j →
        out.get ⟨j, hj⟩ = ((0 : real), (0 : Int)) := by
  refine ⟨_, _, gather_eq b hwf top_k heap hidden model,
    findKBest_eq b hwf order top_k hk heap hidden model, ?_, ?_, ?_⟩
  · intro L
    rw [gather_label_set]
    exact mem_candidateSet b.baseLayers top_k hidden model L
  · intro j hj hjc
    rw [gather_label_set] at hjc ⊢
    have hjf : j < (fusedList b.baseLayers b.args_.nbase top_k hidden model).length := by
      rw [fusedList_length]; exact hjc
    rw [resized_get_lt _ _ _ hj hjf]
    exact (mem_fusedList _ _ _ _ _ _).mp (List.get_mem _ _ _)
  · intro j hj hjc
    rw [gather_label_set] at hjc
    exact resized_get_ge _ _ _ hj (by rw [fusedList_length]; exact hjc)

/-- C5 amended, in scenario C with `k = 5`: three candidate labels and two
appended entries. -/
theorem findKBest_candidates_and_averages_witness :
    ∃ gathered out,
      scenarioC.gather 5 [] () () = some gathered ∧
      scenarioC.findKBest storedOrder 5 [] () () = some out ∧
      (∀ L, L ∈ gathered.2 ↔
        ∃ base ∈ scenarioC.baseLayers, ∃ e ∈ base.findKBest 5 [] () (), e.2 = L) ∧
      (∀ (j : Nat) (hj : j < out.length), j < gathered.2.length →
        (out.get ⟨j, hj⟩).2 ∈ gathered.2 ∧
        (out.get ⟨j, hj⟩).1
          = avgProb scenarioC.baseLayers scenarioC.args_.nbase () () (out.get ⟨j, hj⟩).2) ∧
      ∀ (j : Nat) (hj : j < out.length), gathered.2.length ≤ j →
        out.get ⟨j, hj⟩ = ((0 : real), (0 : Int)) :=
  findKBest_candidates_and_averages scenarioC (by decide) storedOrder 5 (by decide) [] () ()

/-- C6: for every `k ≥ 0`, when every member answers `getLabelP` with a
probability in `[0,1]`, the entries returned by `Bagging::findKBest` are in
non-increasing order of probability: for positions `i < j` the probability at
`j` is at most the probability at `i`. -/
theorem findKBest_probabilities_nonincreasing {Model Vec : Type} (b : Bagging Model Vec)
    (hwf : (b.baseLayers.length : Int) = b.args_.nbase) (order : HashOrder) (top_k : Int)
    (hk : 0 ≤ top_k) (heap : List (real × Int)) (hidden : Vec) (model : Model)
    (hprob : ∀ base ∈ b.baseLayers, ∀ L : Int,
      0 ≤ base.getLabelP L hidden model ∧ base.getLabelP L hidden model ≤ 1) :
    ∃ out, b.findKBest order top_k heap hidden model = some out ∧
      ∀ (i j : Nat) (hij : i < j) (hj : j < out.length),
        (out.get ⟨j, hj⟩).1 ≤ (out.get ⟨i, lt_trans hij hj⟩).1 := by
  refine ⟨_, findKBest_eq b hwf order top_k hk heap hidden model, ?_⟩
  have hn : 0 ≤ b.args_.nbase := by rw [← hwf]; exact Int.natCast_nonneg _
  have hpw : (List.take top_k.toNat (fusedList b.baseLayers b.args_.nbase top_k hidden model) ++
      List.replicate
        (top_k.toNat - (fusedList b.baseLayers b.args_.nbase top_k hidden model).length)
        ((0 : real), (0 : Int))).Pairwise (fun x y => y.1 ≤ x.1) := by
    rw [List.pairwise_append]
    refine ⟨?_, ?_, ?_⟩
    · refine List.Pairwise.sublist (List.take_sublist _ _) ?_
      refine List.Pairwise.imp ?_ (sortReversed_sorted _)
      intro x y hxy
      rcases (pairLe_iff y x).mp hxy with h | ⟨h, _⟩
      · exact le_of_lt h
      · exact le_of_eq h
    · simp [List.pairwise_replicate]
    · intro x hx y hy
      have hy0 : y = ((0 : real), (0 : Int)) := List.eq_of_mem_replicate hy
      have hxf := (mem_fusedList _ _ _ _ _ _).mp (List.mem_of_mem_take hx)
      rw [hy0, hxf.2]
      exact avgProb_nonneg _ _ hn _ _ _ (fun base hb => (hprob base hb x.2).1)
  intro i j hij hj
  exact (List.pairwise_iff_get.mp hpw) ⟨i, lt_trans hij hj⟩ ⟨j, hj⟩ hij

/-- C6, in scenario C with `k = 5`: three candidates and two padded slots. -/
theorem findKBest_probabilities_nonincreasing_witness :
    ∃ out, scenarioC.findKBest storedOrder 5 [] () () = some out ∧
      ∀ (i j : Nat) (hij : i < j) (hj : j < out.length),
        (out.get ⟨j, hj⟩).1 ≤ (out.get ⟨i, lt_trans hij hj⟩).1 :=
  findKBest_probabilities_nonincreasing scenarioC (by decide) storedOrder 5 (by decide) [] () ()
    (by
      intro base hb L
      simp only [scenarioC, List.mem_cons, List.mem_singleton, List.not_mem_nil, or_false] at hb
      rcases hb with rfl | rfl
      · by_cases h1 : L = 1
        · subst h1; decide!
        · by_cases h2 : L = 2
          · subst h2; decide!
          · have e1 : (L == 1) = false := by simpa using h1
            have e2 : (L == 2) = false := by simpa using h2
            simp [tableBase, List.lookup, e1, e2]
      · by_cases h2 : L = 2
        · subst h2; decide!
        · by_cases h3 : L = 3
          · subst h3; decide!
          · have e2 : (L == 2) = false := by simpa using h2
            have e3 : (L == 3) = false := by simpa using h3
            simp [tableBase, List.lookup, e2, e3])

/-- C7, as stated, fails: in scenario C with `k = 2` the sums `0.4 + 0.5` and
`0.9` are the same `real` value, so labels `2` and `3` tie at the averaged
probability `7549747/16777216` (about `0.45`), and the output lists label `3`
before label `2`, the tie in descending label-id order; the order in which
`label_freq` is visited does not change it.  The same holds for a tie between
exactly representable averages (`3/8` for labels `2` and `3`). -/
theorem findKBest_scenarioC_tie_order :
    scenarioC.findKBest storedOrder 2 [] () ()
      = some [(7549747/16777216, 3), (7549747/16777216, 2)] ∧
    scenarioC.findKBest backwardOrder 2 [] () ()
      = some [(7549747/16777216, 3), (7549747/16777216, 2)] ∧
    (scenarioC.findKBest storedOrder 2 [] () ()).map (List.map Prod.snd) ≠ some [2, 3] ∧
    scenarioTie.findKBest storedOrder 2 [] () () = some [(3/8, 3), (3/8, 2)] := by
  decide!

/-- C7, amended: among the returned entries at positions below the number of
candidate labels, entries with equal averaged probability appear in descending
label-id order; in scenario C with `k = 2` the output is label `3` and then
label `2`, both with the probability `7549747/16777216` (the `real` value of
`(0.4 + 0.5) / 2` and of `0.9 / 2`), whatever the visiting order of
`label_freq` and the initial content of the container. -/
theorem findKBest_ties_descending_label {Model Vec : Type} (b : Bagging Model Vec)
    (hwf : (b.baseLayers.length : Int) = b.args_.nbase) (order : HashOrder) (top_k : Int)
    (hk : 0 ≤ top_k) (heap : List (real × Int)) (hidden : Vec) (model : Model)
    (heapC : List (real × Int)) :
    (∃ gathered out,
      b.gather top_k heap hidden model = some gathered ∧
      b.findKBest order top_k heap hidden model = some out ∧
      ∀ (i j : Nat) (hij : i < j) (hj : j < out.length), j < gathered.2.length →
        (out.get ⟨i, lt_trans hij hj⟩).1 = (out.get ⟨j, hj⟩).1 →
        (out.get ⟨j, hj⟩).2 < (out.get ⟨i, lt_trans hij hj⟩).2) ∧
    scenarioC.findKBest order 2 heapC () ()
      = some [(7549747/16777216, 3), (7549747/16777216, 2)] := by
  refine ⟨⟨_, _, gather_eq b hwf top_k heap hidden model,
    findKBest_eq b hwf order top_k hk heap hidden model, ?_⟩, ?_⟩
  · intro i j hij hj hjc heq
    rw [gather_label_set] at hjc
    have hjf : j < (fusedList b.baseLayers b.args_.nbase top_k hidden model).length := by
      rw [fusedList_length]; exact hjc
    have hif : i < (fusedList b.baseLayers b.args_.nbase top_k hidden model).length :=
      lt_trans hij hjf
    rw [resized_get_lt _ _ _ hj hjf] 
    rw [resized_get_lt _ _ _ (lt_trans hij hj) hif] at heq ⊢
    rw [resized_get_lt _ _ _ hj hjf] at heq
    have hsorted := List.pairwise_iff_get.mp
      (sortReversed_sorted ((candidateSet b.baseLayers top_k hidden model).map
        (fun L => (avgProb b.baseLayers b.args_.nbase hidden model L, L))))
      ⟨i, hif⟩ ⟨j, hjf⟩ hij
    have hnd := List.pairwise_iff_get.mp
      (List.pairwise_map.mp (fusedList_labels_nodup b.baseLayers b.args_.nbase top_k hidden model))
      ⟨i, hif⟩ ⟨j, hjf⟩ hij
    rcases (pairLe_iff _ _).mp hsorted with h | ⟨_, h⟩
    · exact absurd heq (ne_of_gt h)
    · exact lt_of_le_of_ne h (fun h2 => hnd h2.symm)
  · rw [findKBest_eq scenarioC (by decide) order 2 (by decide) heapC () ()]
    decide!

/-- C7 amended, in scenario C with `k = 2`. -/
theorem findKBest_ties_descending_label_witness :
    (∃ gathered out,
      scenarioC.gather 2 [] () () = some gathered ∧
      scenarioC.findKBest storedOrder 2 [] () () = some out ∧
      ∀ (i j : Nat) (hij : i < j) (hj : j < out.length), j < gathered.2.length →
        (out.get ⟨i, lt_trans hij hj⟩).1 = (out.get ⟨j, hj⟩).1 →
        (out.get ⟨j, hj⟩).2 < (out.get ⟨i, lt_trans hij hj⟩).2) ∧
    scenarioC.findKBest storedOrder 2 [(1, 7)] () ()
      = some [(7549747/16777216, 3), (7549747/16777216, 2)] :=
  findKBest_ties_descending_label scenarioC (by decide) storedOrder 2 (by decide) [] () ()
    [(1, 7)]

/-- C8, as stated, fails: with two members that both shortlist label `0` only
and `k = 3`, the candidate set has one label and the output is
`[(0.375, 0), (0, 0), (0, 0)]`: it is not clamped to one entry, and the two
filled slots carry the label id `0`, the id of the candidate label itself. -/
theorem findKBest_short_result_not_defined :
    ∃ gathered out,
      scenarioDZero.gather 3 [] () () = some gathered ∧
      scenarioDZero.findKBest storedOrder 3 [] () () = some out ∧
      (gathered.2.length : Int) < 3 ∧
      out = [(3/8, 0), (0, 0), (0, 0)] ∧
      ¬ definedShortResult gathered.2 out := by
  refine ⟨([(1/4, 0)], [0]), [(3/8, 0), (0, 0), (0, 0)], by decide!, by decide!, by decide,
    rfl, ?_⟩
  rintro (h | ⟨sentinel, hs, hall⟩)
  · simp at h
  · have h0 := hall ((0 : real), (0 : Int)) (by simp)
    have hz : sentinel = 0 := by simpa using h0.symm
    exact hs (by simp [hz])

/-- C8, amended: when the candidate set has fewer than `k` labels, the
returned list still has `k` entries; the entries at the positions below the
number of candidates carry candidate labels, and every later slot holds the
value-initialised pair: probability `0` and label id `0`. -/
theorem findKBest_short_candidates_padded {Model Vec : Type} (b : Bagging Model Vec)
    (hwf : (b.baseLayers.length : Int) = b.args_.nbase) (order : HashOrder) (top_k : Int)
    (heap : List (real × Int)) (hidden : Vec) (model : Model)
    (gathered : List (real × Int) × List Int)
    (hg : b.gather top_k heap hidden model = some gathered)
    (hshort : (gathered.2.length : Int) < top_k) :
    ∃ out, b.findKBest order top_k heap hidden model = some out ∧
      (out.length : Int) = top_k ∧
      (∀ (j : Nat) (hj : j < out.length), j < gathered.2.length →
        (out.get ⟨j, hj⟩).2 ∈ gathered.2) ∧
      ∀ (j : Nat) (hj : j < out.length), gathered.2.length ≤ j →
        out.get ⟨j, hj⟩ = ((0 : real), (0 : Int)) := by
  have hk : 0 ≤ top_k := le_trans (Int.natCast_nonneg _) (le_of_lt hshort)
  have hgath : gathered.2 = candidateSet b.baseLayers top_k hidden model := by
    rw [gather_eq b hwf] at hg
    rw [← Option.some.inj hg, gather_label_set]
  refine ⟨_, findKBest_eq b hwf order top_k hk heap hidden model, ?_, ?_, ?_⟩
  · rw [resized_length]; omega
  · intro j hj hjc
    rw [hgath] at hjc ⊢
    have hjf : j < (fusedList b.baseLayers b.args_.nbase top_k hidden model).length := by
      rw [fusedList_length]; exact hjc
    rw [resized_get_lt _ _ _ hj hjf]
    exact ((mem_fusedList _ _ _ _ _ _).mp (List.get_mem _ _ _)).1
  · intro j hj hjc
    rw [hgath] at hjc
    exact resized_get_ge _ _ _ hj (by rw [fusedList_length]; exact hjc)

/-- C8 amended, in scenario D: `N = 2`, `k = 3`, both members shortlist label
`1` only. -/
theorem findKBest_short_candidates_padded_witness :
    ∃ out, scenarioD.findKBest storedOrder 3 [] () () = some out ∧
      (out.length : Int) = 3 ∧
      (∀ (j : Nat) (hj : j < out.length), j < ([1] : List Int).length →
        (out.get ⟨j, hj⟩).2 ∈ ([1] : List Int)) ∧
      ∀ (j : Nat) (hj : j < out.length), ([1] : List Int).length ≤ j →
        out.get ⟨j, hj⟩ = ((0 : real), (0 : Int)) :=
  findKBest_short_candidates_padded scenarioD (by decide) storedOrder 3 [] () ()
    ([(1/4, 1)], [1]) (by decide!) (by decide)

/-! ## Properties of `hashInput` -/

theorem hashInput_lt_one (str : List Nat) : hashInput str < 1 := by
  unfold hashInput
  rw [div_lt_one (by norm_num)]
  have h : hashLoop str 2166136261 % 16777216 < 16777216 := Nat.mod_lt _ (by norm_num)
  exact_mod_cast h

/-- C11: for every string `s`, `Bagging::hashInput(s)` is at least `0` and
strictly below `1`; it is an integer in `[0, 2^24)` divided by `2^24`. -/
theorem hashInput_in_unit_interval (str : List Nat) :
    0 ≤ hashInput str ∧ hashInput str < 1 ∧
      ∃ n : Nat, n < 2 ^ 24 ∧ hashInput str = (n : real) / ((2 ^ 24 : Nat) : real) := by
  refine ⟨hashInput_nonneg str, hashInput_lt_one str,
    hashLoop str 2166136261 % 16777216, Nat.mod_lt _ (by norm_num), ?_⟩
  unfold hashInput
  norm_num

theorem hashLoop_eq_foldl (s : List Nat) (hs : ∀ b ∈ s, b < 128) :
    ∀ h : Nat, hashLoop s h = s.foldl (fun h b => ((h ^^^ b) * 16777619) % 2 ^ 32) h := by
  induction s with
  | nil => intro h; rfl
  | cons c cs ih =>
    intro h
    have hc : c < 128 := hs c (List.mem_cons_self _ _)
    have hcs : ∀ b ∈ cs, b < 128 := fun b hb => hs b (List.mem_cons_of_mem _ hb)
    simp only [hashLoop, charToUint32, hc, if_true, List.foldl_cons]
    rw [ih hcs]
    norm_num

/-- C17: for every string `s` of byte values below `128`,
`Bagging::hashInput(s)` equals `(H(s) mod 2^24) / 2^24` with `H` the 32-bit
FNV-1a fold; and `hashInput("")` is `1875397 / 16777216`. -/
theorem hashInput_eq_fnv1a (s : List Nat) (hs : ∀ b ∈ s, b < 128) :
    hashInput s = ((fnv1a s % 2 ^ 24 : Nat) : real) / ((2 ^ 24 : Nat) : real) ∧
    hashInput [] = 1875397 / 16777216 := by
  constructor
  · unfold hashInput fnv1a
    rw [hashLoop_eq_foldl s hs]
    norm_num
  · unfold hashInput
    have h : hashLoop [] 2166136261 % 16777216 = 1875397 := by decide
    rw [h]
    norm_num

/-- C17, at the string `"0&"`. -/
theorem hashInput_eq_fnv1a_witness :
    hashInput [48, 38] = ((fnv1a [48, 38] % 2 ^ 24 : Nat) : real) / ((2 ^ 24 : Nat) : real) ∧
    hashInput [] = 1875397 / 16777216 :=
  hashInput_eq_fnv1a [48, 38] (by decide)

/-! ## Assertion of `Bagging::setup` -/

/-- C13: `Bagging::setup` fails (the assertion aborts before any member is
built) if and only if the configured member count is `≤ 0`; it completes, with
as many members as configured, if and only if the count is `> 0`. -/
theorem setup_fails_iff_nbase_nonpos {Model Vec Dict Env : Type}
    (lossLayerFactory : Args → Nat → Env → LossLayer Model Vec × Env)
    (baseSetup : LossLayer Model Vec → Args → Dict → Env → LossLayer Model Vec × Env)
    (args : Args) (dict : Dict) (env : Env) (sizeSum0 : Int) (multilabel0 : Bool) :
    ((Bagging.new args sizeSum0 multilabel0).setup lossLayerFactory baseSetup args dict env
        = none ↔ args.nbase ≤ 0) ∧
    ((∃ (b : Bagging Model Vec) (env1 : Env),
        (Bagging.new args sizeSum0 multilabel0).setup lossLayerFactory baseSetup args dict env
          = some (b, env1) ∧ (b.baseLayers.length : Int) = args.nbase) ↔ 0 < args.nbase) := by
  by_cases hN : 0 < args.nbase
  · obtain ⟨b, env1, hset, -, hlen, -, -⟩ :=
      setup_ok lossLayerFactory baseSetup args dict env sizeSum0 multilabel0 hN
    refine ⟨⟨fun h => ?_, fun h => absurd hN (not_lt.mpr h)⟩, ⟨fun _ => hN, fun _ => ?_⟩⟩
    · rw [hset] at h; exact absurd h (by simp)
    · exact ⟨b, env1, hset, by rw [hlen]; omega⟩
  · have hnone : (Bagging.new args sizeSum0 multilabel0).setup lossLayerFactory baseSetup args
        dict env = none := by
      simp [Bagging.setup, hN]
    refine ⟨⟨fun _ => not_lt.mp hN, fun _ => hnone⟩, ⟨fun h => ?_, fun h => absurd h hN⟩⟩
    obtain ⟨b, env1, hset, -⟩ := h
    rw [hnone] at hset
    exact absurd hset (by simp)

/-! ## Member calls of `Bagging::loss` -/

theorem includedFrom_indices_sorted {Model Vec : Type} (p : real) (input : List Int)
    (baseLayers : List (LossLayer Model Vec)) :
    ((includedFrom p input 0 baseLayers).map Prod.fst).Sorted (· < ·) := by
  rw [includedFrom_indices]
  refine List.Pairwise.sublist (List.filter_sublist _) ?_
  exact List.pairwise_lt_range' 0 baseLayers.length

/-- C16: `Bagging::loss` invokes the loss of exactly the included members:
the calls are those of the indices below the member count with
`included p input i`, in ascending order and once each, every call with the
labels and the learning rate of the caller; the model state returned is the
one left by these members' updates, and no excluded member is invoked. -/
theorem loss_invokes_included_members {Model Vec : Type} (b : Bagging Model Vec)
    (input labels : List Int) (lr : real) (model : Model) :
    (b.lossRun input labels lr model).calls
      = ((List.range b.baseLayers.length).filter
          (fun i => decide (included b.args_.bagging input i))).map
          (fun i => (i, labels, lr)) ∧
    (b.invoked input labels lr model).Sorted (· < ·) ∧
    (∀ i, i ∈ b.invoked input labels lr model ↔
      (i < b.baseLayers.length ∧ included b.args_.bagging input i)) ∧
    (b.loss input labels lr model).2
      = modelAfter labels lr
          ((includedFrom b.args_.bagging input 0 b.baseLayers).map Prod.snd) model := by
  have hcalls : (b.lossRun input labels lr model).calls
      = ((includedFrom b.args_.bagging input 0 b.baseLayers).map Prod.fst).map
          (fun i => (i, labels, lr)) := by
    rw [lossRun_eq]; simp [List.map_map, Function.comp_def]
  have hinv : b.invoked input labels lr model
      = (includedFrom b.args_.bagging input 0 b.baseLayers).map Prod.fst := by
    unfold Bagging.invoked
    rw [hcalls]; simp [List.map_map, Function.comp_def]
  refine ⟨?_, ?_, ?_, ?_⟩
  · rw [hcalls, includedFrom_indices, List.range_eq_range']
  · rw [hinv]; exact includedFrom_indices_sorted _ _ _
  · intro i
    rw [hinv, includedFrom_indices]
    simp [List.mem_filter, List.mem_range']
  · simp [Bagging.loss, lossRun_eq]

/-! ## `Bagging::save` and `Bagging::load` -/

theorem save_eq {Model Vec : Type} (baseSave : LossLayer Model Vec → List Nat) :
    ∀ (baseLayers : List (LossLayer Model Vec)) (out : List Nat),
      baseLayers.foldl (fun stream base => stream ++ baseSave base) out
        = out ++ (baseLayers.map baseSave).flatten := by
  intro baseLayers
  induction baseLayers with
  | nil => intro out; simp
  | cons base rest ih => intro out; simp [ih]

theorem loadLoop_roundtrip {Model Vec Env : Type}
    (lossLayerFactory : Args → Nat → Env → LossLayer Model Vec × Env)
    (baseSave : LossLayer Model Vec → List Nat)
    (baseLoad : LossLayer Model Vec → List Nat → LossLayer Model Vec × List Nat)
    (args_ : Args) :
    ∀ (members : List (LossLayer Model Vec)),
      (∀ m ∈ members, ∀ (fresh : LossLayer Model Vec) (rest : List Nat),
        baseLoad fresh (baseSave m ++ rest) = (m, rest)) →
      ∀ (acc : List (LossLayer Model Vec)) (tail : List Nat) (env : Env),
        (Bagging.loadLoop lossLayerFactory baseLoad args_ members.length acc
            ((members.map baseSave).flatten ++ tail) env).1 = acc ++ members ∧
        (Bagging.loadLoop lossLayerFactory baseLoad args_ members.length acc
            ((members.map baseSave).flatten ++ tail) env).2.1 = tail := by
  intro members
  induction members with
  | nil => intro _ acc tail env; simp [Bagging.loadLoop]
  | cons m ms ih =>
    intro hrt acc tail env
    have hm := hrt m (List.mem_cons_self _ _) (lossLayerFactory args_ args_.loss env).1
      ((ms.map baseSave).flatten ++ tail)
    have hms := ih (fun x hx => hrt x (List.mem_cons_of_mem _ hx)) (acc ++ [m]) tail
      (lossLayerFactory args_ args_.loss env).2
    simp only [List.length_cons, List.map_cons, List.flatten_cons, List.append_assoc,
      Bagging.loadLoop, hm]
    simpa using hms

theorem findKBest_congr {Model Vec : Type} (b b2 : Bagging Model Vec)
    (hn : b2.args_.nbase = b.args_.nbase) (hl : b2.baseLayers = b.baseLayers)
    (order : HashOrder) (top_k : Int) (heap : List (real × Int)) (hidden : Vec)
    (model : Model) :
    b2.findKBest order top_k heap hidden model = b.findKBest order top_k heap hidden model := by
  unfold Bagging.findKBest Bagging.gather
  rw [hn, hl]

/-- C12: when every member's `load` gives back the member whose `save` wrote
the bytes and leaves the bytes after them in the stream, `Bagging::save` on a
coordinator with `N` members followed by `Bagging::load` on a fresh
coordinator configured with the same `N` consumes the whole stream and yields
`N` members, the same list as the original, and `findKBest` returns the same
result before and after for every `k` and hidden vector. -/
theorem save_load_roundtrip {Model Vec Env : Type} (b : Bagging Model Vec)
    (hwf : (b.baseLayers.length : Int) = b.args_.nbase)
    (lossLayerFactory : Args → Nat → Env → LossLayer Model Vec × Env)
    (baseSave : LossLayer Model Vec → List Nat)
    (baseLoad : LossLayer Model Vec → List Nat → LossLayer Model Vec × List Nat)
    (hrt : ∀ m ∈ b.baseLayers, ∀ (fresh : LossLayer Model Vec) (rest : List Nat),
      baseLoad fresh (baseSave m ++ rest) = (m, rest))
    (args : Args) (hN : args.nbase = b.args_.nbase) (sizeSum0 : Int) (multilabel0 : Bool)
    (env : Env) :
    (((Bagging.new args sizeSum0 multilabel0).load lossLayerFactory baseLoad
        (b.save baseSave []) env).1.baseLayers = b.baseLayers) ∧
    ((((Bagging.new args sizeSum0 multilabel0).load lossLayerFactory baseLoad
        (b.save baseSave []) env).1.baseLayers.length : Int) = args.nbase) ∧
    (((Bagging.new args sizeSum0 multilabel0).load lossLayerFactory baseLoad
        (b.save baseSave []) env).2.1 = []) ∧
    ∀ (order : HashOrder) (top_k : Int) (heap : List (real × Int)) (hidden : Vec)
      (model : Model),
      ((Bagging.new args sizeSum0 multilabel0).load lossLayerFactory baseLoad
          (b.save baseSave []) env).1.findKBest order top_k heap hidden model
        = b.findKBest order top_k heap hidden model := by
  have hlen : args.nbase.toNat = b.baseLayers.length := by omega
  have hloop := loadLoop_roundtrip lossLayerFactory baseSave baseLoad args b.baseLayers hrt
    [] [] env
  simp only [List.append_nil, List.nil_append] at hloop
  have hsave : b.save baseSave [] = (b.baseLayers.map baseSave).flatten := by
    unfold Bagging.save
    rw [save_eq]; simp
  have hl : ((Bagging.new args sizeSum0 multilabel0).load lossLayerFactory baseLoad
      (b.save baseSave []) env).1.baseLayers = b.baseLayers := by
    simp only [Bagging.load, Bagging.new, hlen, hsave]
    exact hloop.1
  refine ⟨hl, ?_, ?_, ?_⟩
  · rw [hl, hwf, hN]
  · simp only [Bagging.load, Bagging.new, hlen, hsave]
    exact hloop.2
  · intro order top_k heap hidden model
    exact findKBest_congr b _ (by simpa [Bagging.load, Bagging.new] using hN) hl order top_k
      heap hidden model

/-- C12, on a coordinator with the two sample members of sizes `1`, `2` and
losses `0`, `1`. -/
theorem save_load_roundtrip_witness :
    (((Bagging.new (Args.mk 2 1 false 0) 0 false).load sampleFactory sampleLoad
        ((Bagging.mk (Args.mk 2 1 true 0) 3 true [sampleBase 1 0, sampleBase 2 1]).save
          sampleSave []) 0).1.baseLayers
      = (Bagging.mk (Args.mk 2 1 true 0) 3 true [sampleBase 1 0, sampleBase 2 1]).baseLayers) ∧
    ((((Bagging.new (Args.mk 2 1 false 0) 0 false).load sampleFactory sampleLoad
        ((Bagging.mk (Args.mk 2 1 true 0) 3 true [sampleBase 1 0, sampleBase 2 1]).save
          sampleSave []) 0).1.baseLayers.length : Int) = (Args.mk 2 1 false 0).nbase) ∧
    (((Bagging.new (Args.mk 2 1 false 0) 0 false).load sampleFactory sampleLoad
        ((Bagging.mk (Args.mk 2 1 true 0) 3 true [sampleBase 1 0, sampleBase 2 1]).save
          sampleSave []) 0).2.1 = []) ∧
    ∀ (order : HashOrder) (top_k : Int) (heap : List (real × Int)) (hidden : Unit)
      (model : Nat),
      ((Bagging.new (Args.mk 2 1 false 0) 0 false).load sampleFactory sampleLoad
          ((Bagging.mk (Args.mk 2 1 true 0) 3 true [sampleBase 1 0, sampleBase 2 1]).save
            sampleSave []) 0).1.findKBest order top_k heap hidden model
        = (Bagging.mk (Args.mk 2 1 true 0) 3 true
            [sampleBase 1 0, sampleBase 2 1]).findKBest order top_k heap hidden model :=
  save_load_roundtrip (Bagging.mk (Args.mk 2 1 true 0) 3 true [sampleBase 1 0, sampleBase 2 1])
    (by decide) sampleFactory sampleSave sampleLoad
    (by
      intro m hm fresh rest
      simp only [List.mem_cons, List.mem_singleton, List.not_mem_nil, or_false] at hm
      rcases hm with rfl | rfl
      · rfl
      · rfl)
    (Args.mk 2 1 false 0) rfl 0 false 0

/-- C14 fails on the code: `Bagging::load` does not write `sizeSum`.  On a
fresh coordinator with `N = 2` whose `sizeSum` holds `0`, after loading the
two sample members of sizes `1` and `2`, `getSize()` is still `0` while the
sizes of the loaded members add up to `3`. -/
theorem load_leaves_sizeSum_unset :
    ((Bagging.new (Args.mk 2 1 false 0) 0 false).load sampleFactory sampleLoad
        [1, 0, 2, 1] 0).1.getSize = 0 ∧
    (((Bagging.new (Args.mk 2 1 false 0) 0 false).load sampleFactory sampleLoad
        [1, 0, 2, 1] 0).1.baseLayers.map LossLayer.getSize).sum = 3 ∧
    ((Bagging.new (Args.mk 2 1 false 0) 0 false).load sampleFactory sampleLoad
        [1, 0, 2, 1] 0).1.baseLayers.length = 2 := by
  decide

theorem load_getSize_unchanged {Model Vec Env : Type} (self : Bagging Model Vec)
    (lossLayerFactory : Args → Nat → Env → LossLayer Model Vec × Env)
    (baseLoad : LossLayer Model Vec → List Nat → LossLayer Model Vec × List Nat)
    (stream : List Nat) (env : Env) :
    (self.load lossLayerFactory baseLoad stream env).1.getSize = self.sizeSum := rfl

/-! ## Further properties of `Bagging::findKBest` -/

/-- C18: the result of `Bagging::findKBest` does not depend on what the output
container held on entry: for any two initial contents, with the same `k`,
hidden vector and members, the call returns, and the final container is the
same. -/
theorem findKBest_ignores_initial_heap {Model Vec : Type} (b : Bagging Model Vec)
    (hwf : (b.baseLayers.length : Int) = b.args_.nbase) (order : HashOrder) (top_k : Int)
    (hk : 0 ≤ top_k) (heap heap2 : List (real × Int)) (hidden : Vec) (model : Model) :
    ∃ out, b.findKBest order top_k heap hidden model = some out ∧
      b.findKBest order top_k heap2 hidden model = some out :=
  ⟨_, findKBest_eq b hwf order top_k hk heap hidden model,
    findKBest_eq b hwf order top_k hk heap2 hidden model⟩

/-- C18, in scenario C with `k = 2`, for an empty container and one that holds
two stale entries. -/
theorem findKBest_ignores_initial_heap_witness :
    ∃ out, scenarioC.findKBest storedOrder 2 [] () () = some out ∧
      scenarioC.findKBest storedOrder 2 [(1, 7), (1/3, 9)] () () = some out :=
  findKBest_ignores_initial_heap scenarioC (by decide) storedOrder 2 (by decide) []
    [(1, 7), (1/3, 9)] () ()

/-- C15: when the candidate set has at least `k` labels, `Bagging::findKBest`
returns `k` entries that carry pairwise distinct candidate labels, each with
its averaged probability, and no candidate label left out of the output has an
averaged probability strictly greater than that of a returned entry.  The
averaged probability is the one the code stores, computed in `real`
arithmetic (`avgProb`). -/
theorem findKBest_selects_top_k {Model Vec : Type} (b : Bagging Model Vec)
    (hwf : (b.baseLayers.length : Int) = b.args_.nbase) (order : HashOrder) (top_k : Int)
    (hk : 0 ≤ top_k) (heap : List (real × Int)) (hidden : Vec) (model : Model)
    (gathered : List (real × Int) × List Int)
    (hg : b.gather top_k heap hidden model = some gathered)
    (hmany : top_k ≤ (gathered.2.length : Int)) :
    ∃ out, b.findKBest order top_k heap hidden model = some out ∧
      (out.length : Int) = top_k ∧
      (out.map Prod.snd).Nodup ∧
      (∀ e ∈ out, e.2 ∈ gathered.2 ∧
        e.1 = avgProb b.baseLayers b.args_.nbase hidden model e.2) ∧
      ∀ L ∈ gathered.2, L ∉ out.map Prod.snd →
        ∀ e ∈ out, avgProb b.baseLayers b.args_.nbase hidden model L ≤ e.1 := by
  have hgath : gathered.2 = candidateSet b.baseLayers top_k hidden model := by
    rw [gather_eq b hwf] at hg
    rw [← Option.some.inj hg, gather_label_set]
  have hflen := fusedList_length b.baseLayers b.args_.nbase top_k hidden model
  have hpad : top_k.toNat - (fusedList b.baseLayers b.args_.nbase top_k hidden model).length
      = 0 := by
    rw [hflen, ← hgath]; omega
  have hout : b.findKBest order top_k heap hidden model
      = some ((fusedList b.baseLayers b.args_.nbase top_k hidden model).take top_k.toNat) := by
    rw [findKBest_eq b hwf order top_k hk heap hidden model, hpad]
    simp
  refine ⟨_, hout, ?_, ?_, ?_, ?_⟩
  · rw [List.length_take, hflen, ← hgath]; omega
  · exact List.Nodup.sublist ((List.take_sublist _ _).map Prod.snd)
      (fusedList_labels_nodup b.baseLayers b.args_.nbase top_k hidden model)
  · intro e he
    rw [hgath]
    exact (mem_fusedList _ _ _ _ _ _).mp (List.mem_of_mem_take he)
  · intro L hL hLout e he
    rw [hgath] at hL
    have hmem : (avgProb b.baseLayers b.args_.nbase hidden model L, L)
        ∈ fusedList b.baseLayers b.args_.nbase top_k hidden model :=
      (mem_fusedList _ _ _ _ _ _).mpr ⟨hL, rfl⟩
    rw [← List.take_append_drop top_k.toNat
      (fusedList b.baseLayers b.args_.nbase top_k hidden model)] at hmem
    have hdrop : (avgProb b.baseLayers b.args_.nbase hidden model L, L)
        ∈ (fusedList b.baseLayers b.args_.nbase top_k hidden model).drop top_k.toNat := by
      rcases List.mem_append.mp hmem with h | h
      · exact absurd (List.mem_map.mpr ⟨_, h, rfl⟩) hLout
      · exact h
    have hsorted : ((fusedList b.baseLayers b.args_.nbase top_k hidden model).take top_k.toNat
        ++ (fusedList b.baseLayers b.args_.nbase top_k hidden model).drop top_k.toNat).Pairwise
        (fun x y => pairLe y x) := by
      rw [List.take_append_drop]
      exact sortReversed_sorted _
    have hrel := (List.pairwise_append.mp hsorted).2.2 e he _ hdrop
    rcases (pairLe_iff _ _).mp hrel with h | ⟨h, _⟩
    · exact le_of_lt h
    · exact le_of_eq h

/-- C15, in scenario C with `k = 2`: three candidate labels, the two with
averaged probability `0.45` are returned and label `1` is left out. -/
theorem findKBest_selects_top_k_witness :
    ∃ out, scenarioC.findKBest storedOrder 2 [] () () = some out ∧
      (out.length : Int) = 2 ∧
      (out.map Prod.snd).Nodup ∧
      (∀ e ∈ out, e.2 ∈ ([1, 2, 3] : List Int) ∧
        e.1 = avgProb scenarioC.baseLayers scenarioC.args_.nbase () () e.2) ∧
      ∀ L ∈ ([1, 2, 3] : List Int), L ∉ out.map Prod.snd →
        ∀ e ∈ out, avgProb scenarioC.baseLayers scenarioC.args_.nbase () () L ≤ e.1 :=
  findKBest_selects_top_k scenarioC (by decide) storedOrder 2 (by decide) [] () ()
    ([(roundReal (9/10), 3), (1/2, 2)], [1, 2, 3]) (by decide!) (by decide)

/-! ## The dropout key -/

theorem decimal_bytes (n : Nat) : ∀ c ∈ decimal n, 48 ≤ c ∧ c ≤ 57 := by
  intro c hc
  unfold decimal at hc
  split_ifs at hc with h0
  · simp at hc; omega
  · simp only [List.mem_map, List.mem_reverse] at hc
    obtain ⟨d, hd, rfl⟩ := hc
    have := Nat.digits_lt_base (by norm_num : 1 < 10) hd
    omega

theorem decimal_ne_nil (n : Nat) : decimal n ≠ [] := by
  unfold decimal
  split_ifs with h0
  · simp
  · simp [Nat.digits_ne_nil_iff_ne_zero, h0]

theorem decimal_decode (n : Nat) :
    Nat.ofDigits 10 ((decimal n).reverse.map (fun c => c - 48)) = n := by
  unfold decimal
  split_ifs with h0
  · subst h0; simp [Nat.ofDigits]
  · have : ((List.map (fun d => 48 + d) (Nat.digits 10 n).reverse).reverse.map
        (fun c => c - 48)) = Nat.digits 10 n := by
      simp [List.map_reverse, List.map_map, Function.comp_def]
    rw [this, Nat.ofDigits_digits]

theorem decimal_injective (n m : Nat) (h : decimal n = decimal m) : n = m := by
  rw [← decimal_decode n, ← decimal_decode m, h]

theorem to_string_bytes (v : Int) : ∀ c ∈ to_string v, c = 45 ∨ (48 ≤ c ∧ c ≤ 57) := by
  intro c hc
  unfold to_string at hc
  split_ifs at hc with hneg
  · rcases List.mem_cons.mp hc with h | h
    · exact Or.inl h
    · exact Or.inr (decimal_bytes _ c h)
  · exact Or.inr (decimal_bytes _ c hc)

theorem decimal_head_ne_minus (n : Nat) (rest : List Nat) : decimal n ≠ 45 :: rest := by
  intro h
  have := decimal_bytes n 45 (by rw [h]; exact List.mem_cons_self _ _)
  omega

theorem to_string_injective (v w : Int) (h : to_string v = to_string w) : v = w := by
  unfold to_string at h
  split_ifs at h with hv hw hw
  · have := decimal_injective _ _ (List.cons.inj h).2
    omega
  · exact absurd h.symm (decimal_head_ne_minus _ _)
  · exact absurd h (decimal_head_ne_minus _ _)
  · have := decimal_injective _ _ h
    omega

theorem split_at_separator (sep : Nat) :
    ∀ (a b t t2 : List Nat), (∀ c ∈ a, c ≠ sep) → (∀ c ∈ b, c ≠ sep) →
      (∀ c, t.head? = some c → c = sep) → (∀ c, t2.head? = some c → c = sep) →
      a ++ t = b ++ t2 → a = b ∧ t = t2 := by
  intro a
  induction a with
  | nil =>
    intro b t t2 _ hb ht _ h
    cases b with
    | nil => exact ⟨rfl, by simpa using h⟩
    | cons y b2 =>
      simp only [List.nil_append, List.cons_append] at h
      have := ht y (by rw [h]; rfl)
      exact absurd this (hb y (List.mem_cons_self _ _))
  | cons x a2 ih =>
    intro b t t2 ha hb ht ht2 h
    cases b with
    | nil =>
      simp only [List.nil_append, List.cons_append] at h
      have := ht2 x (by rw [← h]; rfl)
      exact absurd this (ha x (List.mem_cons_self _ _))
    | cons y b2 =>
      simp only [List.cons_append, List.cons.injEq] at h
      obtain ⟨hxy, hrest⟩ := h
      have := ih b2 t t2 (fun c hc => ha c (List.mem_cons_of_mem _ hc))
        (fun c hc => hb c (List.mem_cons_of_mem _ hc)) ht ht2 hrest
      exact ⟨by rw [hxy, this.1], this.2⟩

theorem to_string_no_byte (v : Int) (sep : Nat) (hsep : sep = 38 ∨ sep = 95) :
    ∀ c ∈ to_string v, c ≠ sep := by
  intro c hc
  have := to_string_bytes v c hc
  omega

theorem blocks_head (input : List Int) :
    ∀ c, ((input.map (fun f => 95 :: to_string f)).flatten).head? = some c → c = 95 := by
  intro c hc
  cases input with
  | nil => simp at hc
  | cons f fs => simpa using hc.symm

theorem blocks_injective :
    ∀ (input input2 : List Int),
      (input.map (fun f => 95 :: to_string f)).flatten
        = (input2.map (fun f => 95 :: to_string f)).flatten → input = input2 := by
  intro input
  induction input with
  | nil =>
    intro input2 h
    cases input2 with
    | nil => rfl
    | cons g gs => simp at h
  | cons f fs ih =>
    intro input2 h
    cases input2 with
    | nil => simp at h
    | cons g gs =>
      simp only [List.map_cons, List.flatten_cons, List.cons_append, List.cons.injEq,
        true_and] at h
      have hsplit := split_at_separator 95 (to_string f) (to_string g) _ _
        (to_string_no_byte f 95 (Or.inr rfl)) (to_string_no_byte g 95 (Or.inr rfl))
        (blocks_head fs) (blocks_head gs) h
      rw [to_string_injective f g hsplit.1, ih gs hsplit.2]

theorem dropoutKey_inj (i j : Nat) (input input2 : List Int)
    (h : dropoutKey i input = dropoutKey j input2) : i = j ∧ input = input2 := by
  unfold dropoutKey at h
  have hsplit := split_at_separator 38 (to_string (i : Int)) (to_string (j : Int)) _ _
    (to_string_no_byte _ 38 (Or.inl rfl)) (to_string_no_byte _ 38 (Or.inl rfl))
    (fun c hc => by simpa using hc.symm) (fun c hc => by simpa using hc.symm) h
  have hij : (i : Int) = (j : Int) := to_string_injective _ _ hsplit.1
  exact ⟨by exact_mod_cast hij, blocks_injective _ _ (List.cons.inj hsplit.2).2⟩

/-- C19: for `p < 1` the key that `Bagging::loss` hashes for member `i` is the
decimal index, `&`, and `_` followed by the decimal feature id for every input
feature in order; two (member index, input sequence) pairs give the same key
only if the indices are equal and the sequences are equal. -/
theorem dropout_key_injective (p : real) (hp : p < 1) (i j : Nat) (input input2 : List Int)
    (h : to_string (i : Int) ++ catInput p input = to_string (j : Int) ++ catInput p input2) :
    to_string (i : Int) ++ catInput p input
        = to_string (i : Int) ++ 38 :: (input.map (fun f => 95 :: to_string f)).flatten ∧
      i = j ∧ input = input2 := by
  refine ⟨key_eq_dropoutKey p input i hp, ?_⟩
  rw [key_eq_dropoutKey p input i hp, key_eq_dropoutKey p input2 j hp] at h
  exact dropoutKey_inj i j input input2 h

/-- C19, at member `3` and the input `[5, -7]` with `p = 1/2`. -/
theorem dropout_key_injective_witness :
    to_string ((3 : Nat) : Int) ++ catInput (1/2) [5, -7]
        = to_string ((3 : Nat) : Int) ++
            38 :: (([5, -7] : List Int).map (fun f => 95 :: to_string f)).flatten ∧
      3 = 3 ∧ ([5, -7] : List Int) = [5, -7] :=
  dropout_key_injective (1/2) (by norm_num) 3 3 [5, -7] [5, -7] rfl

/-- The keys of reordered and of re-split inputs differ: `[1, 23]` against
`[23, 1]` and against `[12, 3]`. -/
theorem dropoutKey_samples :
    dropoutKey 0 [1, 23] = [48, 38, 95, 49, 95, 50, 51] ∧
    dropoutKey 0 [23, 1] = [48, 38, 95, 50, 51, 95, 49] ∧
    dropoutKey 0 [12, 3] = [48, 38, 95, 49, 50, 95, 51] := by
  decide!

/-! ## Monotonicity of the exclusion in `p` -/

theorem mem_invoked_iff {Model Vec : Type} (b : Bagging Model Vec)
    (input labels : List Int) (lr : real) (model : Model) (i : Nat) :
    i ∈ b.invoked input labels lr model ↔
      (i < b.baseLayers.length ∧ included b.args_.bagging input i) := by
  unfold Bagging.invoked
  rw [lossRun_eq]
  simp only [List.map_map]
  have : ((fun c : Nat × List Int × real => c.1) ∘
      fun ib : Nat × LossLayer Model Vec => (ib.1, labels, lr)) = Prod.fst := rfl
  rw [this, includedFrom_indices]
  simp [List.mem_filter, List.mem_range']

/-- C20: for a fixed member index and input sequence, a member that
`Bagging::loss` excludes at dropout parameter `p` is excluded at every `p2`
with `p ≤ p2 < 1`, and yet is included at every `p3 ≥ 1`; so a member excluded
at some `p` is included again at `1 ≥ p`, and the included set is not monotone
in `p` across `p = 1`. -/
theorem exclusion_monotone_below_one {Model Vec : Type} (b : Bagging Model Vec)
    (input labels : List Int) (lr : real) (model : Model) (i : Nat)
    (hi : i < b.baseLayers.length) (p p2 : real) (hpp : p ≤ p2) (hp2 : p2 < 1)
    (hex : i ∉ (b.withBagging p).invoked input labels lr model) :
    i ∉ (b.withBagging p2).invoked input labels lr model ∧
    (∀ p3 : real, 1 ≤ p3 → i ∈ (b.withBagging p3).invoked input labels lr model) ∧
    (p ≤ 1 ∧ i ∉ (b.withBagging p).invoked input labels lr model ∧
      i ∈ (b.withBagging 1).invoked input labels lr model) := by
  have hlen : ∀ q : real, (b.withBagging q).baseLayers.length = b.baseLayers.length :=
    fun _ => rfl
  have hbag : ∀ q : real, (b.withBagging q).args_.bagging = q := fun _ => rfl
  have hinc1 : ∀ p3 : real, 1 ≤ p3 → i ∈ (b.withBagging p3).invoked input labels lr model := by
    intro p3 hp3
    rw [mem_invoked_iff, hlen, hbag]
    exact ⟨hi, included_of_one_le p3 input hp3 i⟩
  have hnot : ¬ included p input i := by
    intro hinc
    exact hex ((mem_invoked_iff _ _ _ _ _ _).mpr ⟨hi, hinc⟩)
  unfold included at hnot
  have hex2 : p < 1 ∧ hashInput (dropoutKey i input) < p := not_not.mp hnot
  refine ⟨?_, hinc1, le_of_lt hex2.1, hex, hinc1 1 (le_refl _)⟩
  rw [mem_invoked_iff, hlen, hbag]
  rintro ⟨-, hinc⟩
  exact hinc ⟨hp2, lt_of_lt_of_le hex2.2 hpp⟩

/-- C20, at member `1` of two sample members and the input `[1]`: the hash of
the key `"1&_1"` is about `0.155`, so the member is excluded at `p = 1/4` and
at `p2 = 3/4`, and included at every `p3 ≥ 1`. -/
theorem exclusion_monotone_below_one_witness :
    1 ∉ ((Bagging.mk (Args.mk 2 (1/4) true 0) 3 true
        [sampleBase 1 0, sampleBase 2 1]).withBagging (3/4)).invoked [1] [2] (1/10) 0 ∧
    (∀ p3 : real, 1 ≤ p3 →
      1 ∈ ((Bagging.mk (Args.mk 2 (1/4) true 0) 3 true
        [sampleBase 1 0, sampleBase 2 1]).withBagging p3).invoked [1] [2] (1/10) 0) ∧
    ((1/4 : real) ≤ 1 ∧
      1 ∉ ((Bagging.mk (Args.mk 2 (1/4) true 0) 3 true
        [sampleBase 1 0, sampleBase 2 1]).withBagging (1/4)).invoked [1] [2] (1/10) 0 ∧
      1 ∈ ((Bagging.mk (Args.mk 2 (1/4) true 0) 3 true
        [sampleBase 1 0, sampleBase 2 1]).withBagging 1).invoked [1] [2] (1/10) 0) :=
  exclusion_monotone_below_one
    (Bagging.mk (Args.mk 2 (1/4) true 0) 3 true [sampleBase 1 0, sampleBase 2 1])
    [1] [2] (1/10) 0 1 (by decide) (1/4) (3/4) (by norm_num) (by norm_num) (by decide!)

/-! ## Sample runs in `real` and `int32_t` arithmetic -/

theorem roundReal_samples :
    roundReal (31/12) = 10835285/4194304 ∧
    roundReal (2/5) = 13421773/33554432 ∧
    fadd (roundReal (2/5)) (1/2) = roundReal (9/10) ∧
    roundReal 16777217 = 16777216 ∧
    fadd 340282346638528859811704183484516925440 340282346638528859811704183484516925440
      = 340282366920938463463374607431768211456 ∧
    wrapInt32 (2147483647 + 1) = -2147483648 :=
  ⟨by decide!, by decide!, by decide!, by decide!, by decide!, by decide!⟩

theorem loss_sample_rounded :
    ((Bagging.mk (Args.mk 3 1 true 0) 3 true
        [sampleBase 1 1, sampleBase 1 0, sampleBase 1 0]).loss [5, 7] [2] (1/10) 0).1
      = 11184811/33554432 ∧
    ((Bagging.mk (Args.mk 12 1 true 0) 3 true
        [sampleBase 1 5, sampleBase 1 6, sampleBase 1 9, sampleBase 1 11, sampleBase 1 0,
         sampleBase 1 0, sampleBase 1 0, sampleBase 1 0, sampleBase 1 0, sampleBase 1 0,
         sampleBase 1 0, sampleBase 1 0]).loss [5, 7] [2] (1/10) 0).1
      = 10835285/4194304 := by
  decide!

theorem setup_sample_wraps :
    ((Bagging.new (Args.mk 2 1 false 0) 0 false).setup edgeFactory sampleSetup
        (Args.mk 2 1 false 0) () 0).map (fun r => (r.1.getSize, r.1.baseLayers.map
          (fun base => (base.shift, base.size))))
      = some (-2147483648, [(0, 2147483647), (2147483647, 1)]) := by
  decide

theorem findKBest_scenarioC_top1 :
    scenarioC.findKBest storedOrder 1 [] () () = some [(7549747/16777216, 3)] := by
  decide!

end fasttext
